import Mathlib

/-!
# Picard matrix solver (hermes_common): damping update and Anderson acceleration

A shallow embedding of `hermes_common/src/solvers/picard_matrix_solver.cpp`.

* `double` is an arbitrary linearly ordered field `D`, the template parameter `Scalar` an
  arbitrary field `K` (exact arithmetic; `K = D` for the real instantiation, the complex
  numbers over `D` for the complex one).  The library functions the code calls on them
  (`std::abs`, `std::sqrt`, the widening of a `double` in a mixed product) are the fields of
  `ScalarOps`.
* C arrays are lists, read with `rd` and written with `List.set`; `memcpy` is `memcpy`.
* `for (int i = lo; i < hi; i++)` is `forLoop` / `forLoopFrom`.
* A member function is a function from the solver state to the new state, paired with the
  value it returns or with the exception it throws (the state it leaves behind is kept).
* `num_last_vectors_used` is an `int` in the source; allocation sizes below zero are outside
  the model, so it is a natural number here.
-/

set_option autoImplicit false

namespace Hermes.Solvers

/-! ## Loops and arrays -/

/-- Loop `for (int i = 0; i < n; i++) body(i)` run on the state `init`. -/
def forLoop {σ : Type} (n : Nat) (body : Nat → σ → σ) (init : σ) : σ :=
  (List.range n).foldl (fun s i => body i s) init

/-- Loop `for (int j = lo; j < hi; j++) body(j)` run on the state `init`. -/
def forLoopFrom {σ : Type} (lo hi : Nat) (body : Nat → σ → σ) (init : σ) : σ :=
  (List.range' lo (hi - lo)).foldl (fun s j => body j s) init

/-- Array read `a[i]`. -/
def rd {α : Type} [Zero α] (a : List α) (i : Nat) : α := a.getD i 0

/-- Call `memcpy(dst, src, n * sizeof(Scalar))`: the first `n` entries of `dst` are overwritten
with those of `src`. -/
def memcpy {α : Type} (dst src : List α) (n : Nat) : List α :=
  src.take n ++ dst.drop n

/-- Operations of the standard library on `double` (`D`) and `Scalar` (`K`). -/
structure ScalarOps (D K : Type) where
  /-- Widening of a `double` operand in a mixed `double * Scalar` product. -/
  ofDouble : D → K
  /-- Function `std::abs` on `Scalar` (the magnitude, for a complex scalar). -/
  abs : K → D
  /-- Function `std::sqrt` on `double`. -/
  sqrt : D → D

/-- Exceptions a member function can leave with. -/
inductive Exception where
  /-- Thrown by the dense LU decomposition on a degenerate pivot. -/
  | SingularSystem
  deriving DecidableEq, Repr

/-! ## Solver state -/

/-- Modelled from the spec: the kinds of stop threshold (the enumeration
`NonlinearConvergenceMeasurementType` of the base class is missing from the sources):
absolute solution change, relative solution change, residual norm. -/
inductive NonlinearConvergenceMeasurementType where
  | SolutionChangeAbsolute
  | SolutionChangeRelative
  | ResidualNorm
  deriving DecidableEq, Repr

/-- Data members of `PicardMatrixSolver<Scalar>` (with those of its base class that the
file reads or writes). -/
structure PicardMatrixSolver (D K : Type) where
  problem_size : Nat
  sln_vector : List K
  /-- History behind `get_parameter_value(p_damping_factors)`. -/
  p_damping_factors : List D
  /-- History behind `get_parameter_value(solution_change_norms())`. -/
  solution_change_norms : List D
  min_allowed_damping_coeff : D
  manual_damping : Bool
  auto_damping_ratio : D
  manual_damping_factor : D
  initial_auto_damping_factor : D
  sufficient_improvement_factor : D
  necessary_successful_steps_to_increase : Nat
  damping_factor_condition_overloaded : Bool
  sufficient_improvement_factor_jacobian : D
  max_steps_with_reused_jacobian : Nat
  num_last_vectors_used : Nat
  anderson_beta : D
  anderson_is_on : Bool
  vec_in_memory : Nat
  use_initial_guess_for_iterative_solvers : Bool
  previous_vectors : List (List K)
  anderson_coeffs : List K
  previous_Anderson_sln_vector : List K
  /-- Stop threshold kept by the base class (written by `set_tolerance`). -/
  tolerance : D
  /-- Kind of the stop threshold kept by the base class (written by `set_tolerance`). -/
  tolerance_type : NonlinearConvergenceMeasurementType

variable {D K : Type}

/-! ## `update_solution_return_change_norm` -/

section Update
variable [LinearOrderedField D] [Field K]

/-- One pass of the loop body of `update_solution_return_change_norm` at index `i`: the
accumulator and the solution vector after it. -/
def update_solution_body (ops : ScalarOps D K) (current_damping_factor : D)
    (linear_system_solution : List K) (i : Nat) (acc : D × List K) : D × List K :=
  (acc.1 + (ops.abs (rd linear_system_solution i - rd acc.2 i)) ^ 2,
   acc.2.set i (rd acc.2 i
     + ops.ofDouble current_damping_factor * (rd linear_system_solution i - rd acc.2 i)))

/-- Member `update_solution_return_change_norm`: the returned norm and the state left. -/
def update_solution_return_change_norm (ops : ScalarOps D K) (s : PicardMatrixSolver D K)
    (linear_system_solution : List K) : D × PicardMatrixSolver D K :=
  let current_damping_factor := s.p_damping_factors.getLastD 0
  let r := forLoop s.problem_size
    (update_solution_body ops current_damping_factor linear_system_solution)
    ((0 : D), s.sln_vector)
  (ops.sqrt r.1 * current_damping_factor, { s with sln_vector := r.2 })

end Update

/-! ## The one-dimensional fixed point of the specification -/

section FixedPointRun
variable [LinearOrderedField D]

/-- The end-to-end scenario of the specification on a solver with real scalars: `k` calls of
`update_solution_return_change_norm`, each with the candidate `0.5 * x + 3` computed from
the current iterate `x = sln_vector[0]`; the state after the calls and the norms they
returned, first step first. -/
def fixed_point_run (ops : ScalarOps D D) (s : PicardMatrixSolver D D) :
    Nat → PicardMatrixSolver D D × List D
  | 0 => (s, [])
  | k + 1 =>
    let r := fixed_point_run ops s k
    let step := update_solution_return_change_norm ops r.1 [0.5 * rd r.1.sln_vector 0 + 3]
    (step.2, r.2 ++ [step.1])

end FixedPointRun

/-! ## Construction and configuration -/

section Construction
variable [LinearOrderedField D]

/-- Modelled from the spec: the member `set_tolerance` of the base class
`NonlinearMatrixSolver` (missing from the sources): the stop threshold and its kind are
recorded, nothing else changes. -/
def set_tolerance (tolerance_ : D) (toleranceType : NonlinearConvergenceMeasurementType)
    (s : PicardMatrixSolver D K) : PicardMatrixSolver D K :=
  { s with tolerance := tolerance_, tolerance_type := toleranceType }

/-- Member `init_picard`, which the constructor runs on the object the base-class constructor
leaves. -/
def init_picard (s : PicardMatrixSolver D K) : PicardMatrixSolver D K :=
  let s := { s with
    min_allowed_damping_coeff := 1E-4
    manual_damping := false
    auto_damping_ratio := 2.0
    manual_damping_factor := 1.0
    initial_auto_damping_factor := 1.0
    sufficient_improvement_factor := 1.05
    necessary_successful_steps_to_increase := 3
    damping_factor_condition_overloaded := true
    sufficient_improvement_factor_jacobian := 1e-1
    max_steps_with_reused_jacobian := 0 }
  let s := set_tolerance 1e-3 NonlinearConvergenceMeasurementType.SolutionChangeRelative s
  { s with
    num_last_vectors_used := 3
    anderson_beta := 1.0
    anderson_is_on := false
    vec_in_memory := 0
    use_initial_guess_for_iterative_solvers := true }

end Construction

/-- Member `use_overloaded_damping_factor_condition`. -/
def use_overloaded_damping_factor_condition (onOff : Bool) (s : PicardMatrixSolver D K) :
    PicardMatrixSolver D K :=
  { s with damping_factor_condition_overloaded := onOff }

/-! ## Dense matrix operations (interface) -/

/-- Row read `a[i]` of an array of arrays. -/
def row {α : Type} (a : List (List α)) (i : Nat) : List α := a.getD i []

/-- Entry write `a[i][j] = v` of an array of arrays. -/
def setEntry {α : Type} (a : List (List α)) (i j : Nat) (v : α) : List (List α) :=
  a.set i ((row a i).set j v)

/-- State of a member function when it returns or throws: the exception thrown, if any, and
the data members as they are left. -/
structure Outcome (σ : Type) where
  thrown : Option Exception
  state : σ

/-- The two routines of `dense_matrix_operations.h` that `calculate_anderson_coeffs` calls.
The header is not part of the sources, so the routines are parameters of the embedding.
`ludcmp a n` gives the decomposed matrix and the row permutation `indx`, or throws; its
parity output `d` is never read by the caller and is left out.  `lubksb a n indx b` gives
the overwritten right-hand side. -/
structure DenseMatrixOperations (K : Type) where
  ludcmp : List (List K) → Nat → Except Exception (List (List K) × List Nat)
  lubksb : List (List K) → Nat → List Nat → List K → List K

/-! ## `damping_factor_condition` -/

section Damping
variable [LinearOrderedField D]

/-- Member `damping_factor_condition`; `base` is the predicate of the base class
`NonlinearMatrixSolver`, which is not part of the sources. -/
def damping_factor_condition (base : PicardMatrixSolver D K → Bool)
    (s : PicardMatrixSolver D K) : Bool :=
  if s.damping_factor_condition_overloaded then
    if s.solution_change_norms.length = 1 then
      true
    else
      let sln_change_norm := rd s.solution_change_norms (s.solution_change_norms.length - 1)
      let previous_sln_change_norm :=
        rd s.solution_change_norms (s.solution_change_norms.length - 2)
      decide (sln_change_norm < previous_sln_change_norm * s.sufficient_improvement_factor)
  else
    base s

end Damping

/-! ## Damping controller

The controller that records one damping factor per step lives in the base class
`NonlinearMatrixSolver`, outside the sources; what follows is the controller as the
specification describes it, run with the acceptance predicate `damping_factor_condition`. -/

section DampingController
variable [LinearOrderedField D]

/-- Modelled from the spec: the decisions of the damping controller (which is missing from
the sources). -/
inductive DampingDecision where
  | increase
  | keep
  | decrease
  | diverge
  deriving DecidableEq, Repr

/-- Modelled from the spec: the per-solve data of the damping controller (missing from the
sources): the recorded damping factors and solution-change norms, the number of
consecutive successful steps and whether `Divergence` has been reported. -/
structure DampingRun (D : Type) where
  damping_factors : List D
  solution_change_norms : List D
  successful_steps : Nat
  diverged : Bool

/-- The solver `s` with the histories of the run `r`. -/
def DampingRun.solver (s : PicardMatrixSolver D K) (r : DampingRun D) :
    PicardMatrixSolver D K :=
  { s with p_damping_factors := r.damping_factors
           solution_change_norms := r.solution_change_norms }

/-- Modelled from the spec: the decision of the damping controller (missing from the
sources).  The first step (no prior change norm) keeps; a step accepted by
`damping_factor_condition` is successful and increases after
`necessary_successful_steps_to_increase` consecutive successful steps, else keeps; an
unsuccessful step divides the damping factor by `auto_damping_ratio` and diverges if the
result is below `min_allowed_damping_coeff`. -/
def damping_decide (base : PicardMatrixSolver D K → Bool) (s : PicardMatrixSolver D K)
    (r : DampingRun D) : DampingDecision :=
  if r.solution_change_norms.length ≤ 1 then
    DampingDecision.keep
  else if damping_factor_condition base (r.solver s) then
    if s.necessary_successful_steps_to_increase ≤ r.successful_steps + 1 then
      DampingDecision.increase
    else
      DampingDecision.keep
  else if r.damping_factors.getLastD 0 / s.auto_damping_ratio < s.min_allowed_damping_coeff then
    DampingDecision.diverge
  else
    DampingDecision.decrease

/-- Modelled from the spec: one step of the damping controller (missing from the sources):
the damping factor of the next step is recorded.  Manual damping records the fixed
`manual_damping_factor`; an increase multiplies by `auto_damping_ratio`, capped at 1.0; a
decrease divides by it; on `diverge` the divided factor is recorded and `Divergence` is
reported, after which nothing more is recorded. -/
def damping_controller_step (base : PicardMatrixSolver D K → Bool)
    (s : PicardMatrixSolver D K) (r : DampingRun D) : DampingRun D :=
  if r.diverged then
    r
  else if s.manual_damping then
    { r with damping_factors := r.damping_factors ++ [s.manual_damping_factor] }
  else
    let d := r.damping_factors.getLastD 0
    match damping_decide base s r with
    | DampingDecision.keep =>
      { r with
        damping_factors := r.damping_factors ++ [d]
        successful_steps :=
          if r.solution_change_norms.length ≤ 1 then r.successful_steps
          else r.successful_steps + 1 }
    | DampingDecision.increase =>
      { r with
        damping_factors := r.damping_factors ++ [min (d * s.auto_damping_ratio) 1.0]
        successful_steps := r.successful_steps + 1 }
    | DampingDecision.decrease =>
      { r with
        damping_factors := r.damping_factors ++ [d / s.auto_damping_ratio]
        successful_steps := 0 }
    | DampingDecision.diverge =>
      { r with
        damping_factors := r.damping_factors ++ [d / s.auto_damping_ratio]
        successful_steps := 0
        diverged := true }

/-- Modelled from the spec: the damping factors of one solve (the loop is missing from the
sources): the history starts with `manual_damping_factor` or
`initial_auto_damping_factor`; each step appends the solution-change norm of the step (an
entry of `norms`) and runs the controller. -/
def damping_run (base : PicardMatrixSolver D K → Bool) (s : PicardMatrixSolver D K)
    (norms : List D) : DampingRun D :=
  norms.foldl
    (fun r norm =>
      damping_controller_step base s
        { r with solution_change_norms := r.solution_change_norms ++ [norm] })
    { damping_factors :=
        [if s.manual_damping then s.manual_damping_factor else s.initial_auto_damping_factor]
      solution_change_norms := []
      successful_steps := 0
      diverged := false }

end DampingController

/-! ## Anderson acceleration -/

section Anderson
variable [Field K]

/-- Member `init_anderson`.  Freshly allocated buffers hold zeros (their content is never
read before it is written). -/
def init_anderson (s : PicardMatrixSolver D K) : PicardMatrixSolver D K :=
  if s.anderson_is_on then
    let previous_Anderson_sln_vector : List K := List.replicate s.problem_size 0
    let previous_vectors : List (List K) :=
      List.replicate s.num_last_vectors_used (List.replicate s.problem_size 0)
    let anderson_coeffs : List K := List.replicate (s.num_last_vectors_used - 1) 0
    let previous_vectors :=
      previous_vectors.set 0 (memcpy (row previous_vectors 0) s.sln_vector s.problem_size)
    { s with
      previous_Anderson_sln_vector := previous_Anderson_sln_vector
      previous_vectors := previous_vectors
      anderson_coeffs := anderson_coeffs
      vec_in_memory := 1 }
  else
    s

/-- The local `residual_i_k = previous_vectors[i + 1][k] - previous_vectors[i][k]`. -/
def residual (previous_vectors : List (List K)) (i k : Nat) : K :=
  rd (row previous_vectors (i + 1)) k - rd (row previous_vectors i) k

/-- Inner loop of `calculate_anderson_coeffs` that accumulates `rhs[i]`, after `rhs[i] = 0`. -/
def anderson_rhs_loop (previous_vectors : List (List K)) (problem_size n i : Nat)
    (rhs : List K) : List K :=
  forLoop problem_size
    (fun k rhs =>
      let residual_n_k := residual previous_vectors n k
      let residual_i_k := residual previous_vectors i k
      rhs.set i (rd rhs i + residual_n_k * (residual_n_k - residual_i_k)))
    (rhs.set i 0)

/-- Inner loop of `calculate_anderson_coeffs` that accumulates `val` for `mat[i][j]`. -/
def anderson_val (previous_vectors : List (List K)) (problem_size n i j : Nat) : K :=
  forLoop problem_size
    (fun k val =>
      let residual_n_k := residual previous_vectors n k
      let residual_i_k := residual previous_vectors i k
      let residual_j_k := residual previous_vectors j k
      val + (residual_n_k - residual_i_k) * (residual_n_k - residual_j_k))
    0

/-- One pass of the outer set-up loop of `calculate_anderson_coeffs` at index `i`: `rhs[i]`
and row `i` of `mat` are computed. -/
def anderson_system_body (previous_vectors : List (List K)) (problem_size n i : Nat)
    (mr : List (List K) × List K) : List (List K) × List K :=
  let rhs := anderson_rhs_loop previous_vectors problem_size n i mr.2
  let mat := forLoop n
    (fun j mat => setEntry mat i j (anderson_val previous_vectors problem_size n i j))
    mr.1
  (mat, rhs)

/-- The set-up loops of `calculate_anderson_coeffs`: the matrix `mat` and the vector `rhs`
handed to the dense solve (both freshly allocated, here with zeros). -/
def anderson_system (previous_vectors : List (List K)) (problem_size n : Nat) :
    List (List K) × List K :=
  forLoop n (anderson_system_body previous_vectors problem_size n)
    (List.replicate n (List.replicate n 0), List.replicate n 0)

/-- The last loop of `calculate_anderson_coeffs` and the assignment after it: the solved
vector `rhs` is copied into the first `n` coefficients and summed, and the coefficient of
index `n` is `1.0 - sum`. -/
def store_anderson_coeffs (rhs anderson_coeffs : List K) (n : Nat) : List K :=
  let cs := forLoop n
    (fun i (cs : List K × K) => (cs.1.set i (rd rhs i), cs.2 + rd rhs i))
    (anderson_coeffs, 0)
  cs.1.set n (1 - cs.2)

/-- Member `calculate_anderson_coeffs`. -/
def calculate_anderson_coeffs (dense : DenseMatrixOperations K)
    (s : PicardMatrixSolver D K) : Outcome (PicardMatrixSolver D K) :=
  if s.num_last_vectors_used = 2 then
    ⟨none, { s with anderson_coeffs := s.anderson_coeffs.set 0 1 }⟩
  else
    let n := s.num_last_vectors_used - 2
    let sys := anderson_system s.previous_vectors s.problem_size n
    match dense.ludcmp sys.1 n with
    | .error e => ⟨some e, s⟩
    | .ok (mat, perm) =>
      let rhs := dense.lubksb mat n perm sys.2
      ⟨none, { s with anderson_coeffs := store_anderson_coeffs rhs s.anderson_coeffs n }⟩

/-- First part of `handle_previous_vectors` (Anderson on): the new vector is stored in the
memory.  The arrays of the memory are held by value: the source rotates the pointers of
the slots and then copies `sln_vector` into the buffer of the oldest vector, which by then
is the one of the last slot. -/
def store_new_vector (s : PicardMatrixSolver D K) : PicardMatrixSolver D K :=
  if s.vec_in_memory < s.num_last_vectors_used then
    { s with
      previous_vectors := s.previous_vectors.set s.vec_in_memory
        (memcpy (row s.previous_vectors s.vec_in_memory) s.sln_vector s.problem_size)
      vec_in_memory := s.vec_in_memory + 1 }
  else
    let oldest_vec := row s.previous_vectors 0
    let previous_vectors := forLoop (s.num_last_vectors_used - 1)
      (fun i (pv : List (List K)) => pv.set i (row pv (i + 1))) s.previous_vectors
    let previous_vectors := previous_vectors.set (s.num_last_vectors_used - 1) oldest_vec
    { s with
      previous_vectors := previous_vectors.set (s.num_last_vectors_used - 1)
        (memcpy oldest_vec s.sln_vector s.problem_size) }

/-- The loops of `handle_previous_vectors` that compute the new vector into
`previous_Anderson_sln_vector`. -/
def anderson_combination (ops : ScalarOps D K) [LinearOrderedField D]
    (s : PicardMatrixSolver D K) : List K :=
  forLoop s.problem_size
    (fun i (v : List K) =>
      forLoopFrom 1 s.num_last_vectors_used
        (fun j (v : List K) =>
          v.set i (rd v i
            + (rd s.anderson_coeffs (j - 1) * rd (row s.previous_vectors j) i
              - ops.ofDouble (1 - s.anderson_beta) * rd s.anderson_coeffs (j - 1)
                * (rd (row s.previous_vectors j) i - rd (row s.previous_vectors (j - 1)) i))))
        (v.set i 0))
    s.previous_Anderson_sln_vector

/-- The accelerated vector as the specification writes it: component `k` is the sum over
`j = 1 .. N - 1` of `coeff[j-1] * memory[j][k]
- (1 - beta) * coeff[j-1] * (memory[j][k] - memory[j-1][k])`. -/
def spec_x_accelerated (ops : ScalarOps D K) [LinearOrderedField D] (memory : List (List K))
    (coeff : List K) (beta : D) (N k : Nat) : K :=
  ∑ j in Finset.Ico 1 N,
    (rd coeff (j - 1) * rd (row memory j) k
      - ops.ofDouble (1 - beta) * rd coeff (j - 1)
        * (rd (row memory j) k - rd (row memory (j - 1)) k))

/-- Member `handle_previous_vectors`. -/
def handle_previous_vectors (ops : ScalarOps D K) [LinearOrderedField D]
    (dense : DenseMatrixOperations K) (s : PicardMatrixSolver D K) :
    Outcome (PicardMatrixSolver D K) :=
  if s.anderson_is_on then
    let s1 := store_new_vector s
    if s1.vec_in_memory ≥ s1.num_last_vectors_used then
      let r := calculate_anderson_coeffs dense s1
      match r.thrown with
      | some e => ⟨some e, r.state⟩
      | none =>
        ⟨none, { r.state with
          previous_Anderson_sln_vector := anderson_combination ops r.state }⟩
    else
      ⟨none, s1⟩
  else
    ⟨none, s⟩

/-- The second part of `handle_previous_vectors`, the statements run when the memory is
full: the Anderson coefficients are calculated and the new vector is computed into
`previous_Anderson_sln_vector`. -/
def acceleration_step (ops : ScalarOps D K) [LinearOrderedField D]
    (dense : DenseMatrixOperations K) (s : PicardMatrixSolver D K) :
    Outcome (PicardMatrixSolver D K) :=
  let r := calculate_anderson_coeffs dense s
  match r.thrown with
  | some e => ⟨some e, r.state⟩
  | none =>
    ⟨none, { r.state with
      previous_Anderson_sln_vector := anderson_combination ops r.state }⟩

/-- The Anderson calls of one solve: `init_anderson` (run by `init_solving`), then one call of
`handle_previous_vectors` (run by `solve_linear_system`) for each entry of `xs`, the
solution vector the rest of the solver has left in `sln_vector` at that step.  The state is
followed through every call, whether or not it throws. -/
def anderson_run (ops : ScalarOps D K) [LinearOrderedField D]
    (dense : DenseMatrixOperations K) (s : PicardMatrixSolver D K) (xs : List (List K)) :
    PicardMatrixSolver D K :=
  xs.foldl
    (fun st x => (handle_previous_vectors ops dense { st with sln_vector := x }).state)
    (init_anderson s)

end Anderson

/-! ## Dense LU solve

The routines `ludcmp` and `lubksb` live in `dense_matrix_operations.h`, outside the sources;
what follows is the dense solve as the specification describes it: LU decomposition with
partial pivoting that fails with `SingularSystem` when a zero pivot is met after the row
interchange. -/

section DenseLU
variable [LinearOrderedField D] [Field K] [DecidableEq K]

/-- Modelled from the spec: the pivot search of `ludcmp` (missing from the sources), partial
pivoting: the first row at or below `j` whose entry in column `j` has the largest magnitude. -/
def pivot_row (ops : ScalarOps D K) (a : List (List K)) (n j : Nat) : Nat :=
  forLoopFrom (j + 1) n
    (fun i imax => if ops.abs (rd (row a imax) j) < ops.abs (rd (row a i) j) then i else imax)
    j

/-- Modelled from the spec: the row interchange of `ludcmp` (missing from the sources). -/
def swap_rows (a : List (List K)) (i j : Nat) : List (List K) :=
  (a.set i (row a j)).set j (row a i)

/-- Modelled from the spec: the elimination of row `i` with the pivot row `j` in `ludcmp`
(missing from the sources): the multiplier `f = a[i][j] / a[j][j]` is stored in `a[i][j]` and
`f` times row `j` is subtracted from row `i` in the columns after `j`. -/
def eliminate_row (n j i : Nat) (a : List (List K)) : List (List K) :=
  let f := rd (row a i) j / rd (row a j) j
  forLoopFrom (j + 1) n
    (fun k a => setEntry a i k (rd (row a i) k - f * rd (row a j) k))
    (setEntry a i j f)

/-- Modelled from the spec: the elimination below the pivot of column `j` in `ludcmp`
(missing from the sources); the multipliers are stored in place of the zeros. -/
def eliminate (a : List (List K)) (n j : Nat) : List (List K) :=
  forLoopFrom (j + 1) n (eliminate_row n j) a

/-- Modelled from the spec: one column of `ludcmp` (missing from the sources): pivot search,
row interchange, `SingularSystem` if the pivot is zero after the interchange, elimination. -/
def ludcmp_step (ops : ScalarOps D K) (n j : Nat) (st : List (List K) × List Nat) :
    Except Exception (List (List K) × List Nat) :=
  let imax := pivot_row ops st.1 n j
  let a := swap_rows st.1 j imax
  if rd (row a j) j = 0 then
    .error Exception.SingularSystem
  else
    .ok (eliminate a n j, st.2.set j imax)

/-- Modelled from the spec: the routine `ludcmp` of `dense_matrix_operations.h` (missing from
the sources): LU decomposition with partial pivoting of the `n × n` matrix `a`. -/
def ludcmp (ops : ScalarOps D K) (a : List (List K)) (n : Nat) :
    Except Exception (List (List K) × List Nat) :=
  (List.range n).foldlM (fun st j => ludcmp_step ops n j st) (a, List.replicate n 0)

/-- Modelled from the spec: the routine `lubksb` of `dense_matrix_operations.h` (missing from
the sources): the row interchanges applied to `b`, forward substitution with the unit lower
factor, back substitution with the upper factor. -/
def lubksb (a : List (List K)) (n : Nat) (indx : List Nat) (b : List K) : List K :=
  let b := forLoop n (fun j b => (b.set j (rd b (rd indx j))).set (rd indx j) (rd b j)) b
  let b := forLoop n
    (fun i b => b.set i (forLoop i (fun k acc => acc - rd (row a i) k * rd b k) (rd b i))) b
  forLoop n
    (fun t b =>
      let i := n - 1 - t
      b.set i (forLoopFrom (i + 1) n (fun k acc => acc - rd (row a i) k * rd b k) (rd b i)
        / rd (row a i) i))
    b

/-- Modelled from the spec: the dense solve of `dense_matrix_operations.h` (missing from the
sources) as the pair of routines `calculate_anderson_coeffs` calls. -/
def denseLU (ops : ScalarOps D K) : DenseMatrixOperations K where
  ludcmp := ludcmp ops
  lubksb := lubksb

end DenseLU

/-! ## Matrices of arrays -/

section MatrixView
variable [Field K]

/-- The array of arrays `a` read as an `n × n` matrix. -/
def toMatrix (a : List (List K)) (n : Nat) : Matrix (Fin n) (Fin n) K :=
  Matrix.of fun i c => rd (row a i.val) c.val

/-- The array of arrays `a` read as an `n × n` matrix, with zeros in place of the multipliers
that the decomposition has stored below the diagonal in the first `j` columns. -/
def reduced (a : List (List K)) (n j : Nat) : Matrix (Fin n) (Fin n) K :=
  Matrix.of fun i c => if c.val < j ∧ c.val < i.val then 0 else rd (row a i.val) c.val

end MatrixView

/-! ## Concrete data for evaluating the definitions -/

/-- Rational arithmetic: `std::abs` is the absolute value, `std::sqrt` the quotient of the
integer square roots of numerator and denominator (exact on squares of rationals). -/
def ratOps : ScalarOps ℚ ℚ where
  ofDouble := fun d => d
  abs := fun q => |q|
  sqrt := fun q => (Nat.sqrt q.num.toNat : ℚ) / (Nat.sqrt q.den : ℚ)

/-- A solver over the rationals with empty buffers and the settings of the constructor. -/
def ratSolver : PicardMatrixSolver ℚ ℚ where
  problem_size := 0
  sln_vector := []
  p_damping_factors := []
  solution_change_norms := []
  min_allowed_damping_coeff := 1 / 10000
  manual_damping := false
  auto_damping_ratio := 2
  manual_damping_factor := 1
  initial_auto_damping_factor := 1
  sufficient_improvement_factor := 105 / 100
  necessary_successful_steps_to_increase := 3
  damping_factor_condition_overloaded := true
  sufficient_improvement_factor_jacobian := 1 / 10
  max_steps_with_reused_jacobian := 0
  num_last_vectors_used := 3
  anderson_beta := 1
  anderson_is_on := false
  vec_in_memory := 0
  use_initial_guess_for_iterative_solvers := true
  previous_vectors := []
  anderson_coeffs := []
  previous_Anderson_sln_vector := []
  tolerance := 1 / 1000
  tolerance_type := NonlinearConvergenceMeasurementType.SolutionChangeRelative

/-- A solver over the rationals with Anderson on, depth 3, two vectors `[0], [1]` in memory
and the solution vector `[3]`. -/
def andersonSolver : PicardMatrixSolver ℚ ℚ :=
  { ratSolver with
    problem_size := 1
    sln_vector := [3]
    anderson_is_on := true
    vec_in_memory := 2
    previous_vectors := [[0], [1], [0]]
    anderson_coeffs := [0, 0]
    previous_Anderson_sln_vector := [0] }

end Hermes.Solvers

/-! # Logging mixin (hermes_common): `Loggable`

A shallow embedding of the logging members of `hermes_common/src/mixins.cpp`, on the branch
compiled without `_WINDOWS`.  Everything the code emits (standard output, log file,
callback) is appended to a list of events; a member is a function from the object and the
events so far to its result or exception, the object as left and the events after it.
The text an `error`, `warn` or `info` call formats with `vsprintf` is passed formatted. -/

namespace Hermes.Mixins

/-- Constants of the headers, which are not part of the sources: the event codes and the
length of the delimiter of the log file. -/
structure LogConstants where
  HERMES_EC_ERROR : Char
  HERMES_EC_WARNING : Char
  HERMES_EC_INFO : Char
  HERMES_LOG_FILE_DELIM_SIZE : Nat

/-- What the logging code reads from outside the object: the static member
`staticLogFileName`, whether `fopen` of a file in a mode succeeds, and the time formatted by
`strftime`. -/
structure LogEnvironment where
  staticLogFileName : Option String
  fopen_succeeds : String → String → Bool
  time_buf : String

/-- Data members of `Loggable`; of `verbose_callback` only whether it is set. -/
structure Loggable where
  verbose_output : Bool
  verbose_callback : Bool
  logFileName : Option String
  print_timestamps : Bool
  erase_on_beginning : Bool
  file_output_only : Bool
  log_file_written : Bool
  add_newline : Bool
  deriving DecidableEq, Repr

/-- What the logging code emits. -/
inductive LogEvent where
  /-- Text written to standard output by `printf`. -/
  | printf (text : String)
  /-- Call `fopen(name, mode)` on the log file. -/
  | fopen (name mode : String)
  /-- Text written to the log file by `fprintf`. -/
  | fprintf (text : String)
  /-- Call `fclose` on the log file. -/
  | fclose
  /-- Call of `verbose_callback` on a message. -/
  | callback (msg : String)
  deriving DecidableEq, Repr

/-- Exceptions (`Hermes::Exceptions::Exception`) the logging code throws. -/
inductive LogException where
  /-- Message `"Unknown error code: '%c'"` with the code. -/
  | UnknownErrorCode (code : Char)
  deriving DecidableEq, Repr

/-- A member of `Loggable` after it returned or threw: the value or the exception, the object
as left and every event emitted so far. -/
structure LogOutcome (α : Type) where
  result : Except LogException α
  object : Loggable
  events : List LogEvent

/-- Macro `FOREGROUND_RED` of the branch without `_WINDOWS`. -/
def FOREGROUND_RED : Nat := 1

/-- Macro `FOREGROUND_GREEN` of the branch without `_WINDOWS`. -/
def FOREGROUND_GREEN : Nat := 2

/-- Macro `FOREGROUND_BLUE` of the branch without `_WINDOWS`. -/
def FOREGROUND_BLUE : Nat := 4

/-- The statements of `write_console` after the `switch`: colour code, bold, text and reset
are printed. -/
def write_console_print (console_attrs : Nat) (console_bold : Bool) (text : String)
    (events : List LogEvent) : List LogEvent :=
  let events := events ++ [LogEvent.printf ("\x1b[" ++ toString (console_attrs + 30) ++ "m")]
  let events := if console_bold then events ++ [LogEvent.printf "\x1b[1m"] else events
  events ++ [LogEvent.printf (text ++ "\x1b[0m")]

/-- Member `write_console`, branch without `_WINDOWS`: the value returned or the exception
thrown, and the events after it. -/
def write_console (c : LogConstants) (code : Char) (text : String) (events : List LogEvent) :
    Except LogException Bool × List LogEvent :=
  let console_attrs : Nat := 0
  let console_bold : Bool := false
  if code = c.HERMES_EC_WARNING then
    (Except.ok true,
      write_console_print (console_attrs ||| (FOREGROUND_RED ||| FOREGROUND_GREEN))
        console_bold text events)
  else if code = c.HERMES_EC_INFO then
    (Except.ok true, write_console_print console_attrs true text events)
  else
    (Except.error (LogException.UnknownErrorCode code), events)

/-- First part of `hermes_log_message`: the message goes to the console unless
`file_output_only` is set. -/
def log_to_console (c : LogConstants) (this : Loggable) (code : Char) (msg : String)
    (events : List LogEvent) : Except LogException Unit × List LogEvent :=
  if !this.file_output_only then
    let r := write_console c code msg events
    match r.1 with
    | Except.error e => (Except.error e, r.2)
    | Except.ok written =>
      let events := if !written then r.2 ++ [LogEvent.printf msg] else r.2
      (Except.ok (), events ++ [LogEvent.printf "\n"])
  else
    (Except.ok (), events)

/-- Second part of `hermes_log_message`: the message goes to the log file, if one is named,
and to the callback. -/
def log_to_file (c : LogConstants) (env : LogEnvironment) (this : Loggable) (msg : String)
    (events : List LogEvent) : Loggable × List LogEvent :=
  let log_file_name :=
    match this.logFileName with
    | some name => some name
    | none => env.staticLogFileName
  match log_file_name with
  | none => (this, events)
  | some name =>
    let mode := if this.erase_on_beginning && !this.log_file_written then "wt" else "at"
    let events := events ++ [LogEvent.fopen name mode]
    if env.fopen_succeeds name mode then
      let first :=
        if !this.log_file_written then
          ({ this with log_file_written := true },
            if !this.erase_on_beginning then
              Solvers.forLoop c.HERMES_LOG_FILE_DELIM_SIZE
                (fun _ (events : List LogEvent) => events ++ [LogEvent.fprintf "-"])
                (events ++ [LogEvent.fprintf "\n"])
              ++ [LogEvent.fprintf "\n\n"]
            else events)
        else (this, events)
      let events :=
        if this.print_timestamps then
          first.2 ++ [LogEvent.fprintf (env.time_buf ++ "\t" ++ msg)]
        else first.2 ++ [LogEvent.fprintf msg]
      let events := if this.add_newline then events ++ [LogEvent.fprintf "\n"] else events
      let events := events ++ [LogEvent.fclose]
      let events := if this.verbose_callback then events ++ [LogEvent.callback msg] else events
      (first.1, events)
    else
      (this, events)

/-- Member `hermes_log_message`. -/
def hermes_log_message (c : LogConstants) (env : LogEnvironment) (this : Loggable)
    (code : Char) (msg : String) (events : List LogEvent) : LogOutcome Unit :=
  let r := log_to_console c this code msg events
  match r.1 with
  | Except.error e => ⟨Except.error e, this, r.2⟩
  | Except.ok _ =>
    let f := log_to_file c env this msg r.2
    ⟨Except.ok (), f.1, f.2⟩

/-- Member `error`, called with the formatted text. -/
def error (c : LogConstants) (env : LogEnvironment) (this : Loggable) (text_contents : String)
    (events : List LogEvent) : LogOutcome Unit :=
  if !this.verbose_output then
    ⟨Except.ok (), this, events⟩
  else
    hermes_log_message c env this c.HERMES_EC_ERROR text_contents events

/-- Member `warn`, called with the formatted text. -/
def warn (c : LogConstants) (env : LogEnvironment) (this : Loggable) (text_contents : String)
    (events : List LogEvent) : LogOutcome Unit :=
  if !this.verbose_output then
    ⟨Except.ok (), this, events⟩
  else
    hermes_log_message c env this c.HERMES_EC_WARNING text_contents events

/-- Member `info`, called with the formatted text. -/
def info (c : LogConstants) (env : LogEnvironment) (this : Loggable) (text_contents : String)
    (events : List LogEvent) : LogOutcome Unit :=
  if !this.verbose_output then
    ⟨Except.ok (), this, events⟩
  else
    hermes_log_message c env this c.HERMES_EC_INFO text_contents events

/-- Constructor `Loggable(verbose_output, verbose_callback, add_newline)`. -/
def Loggable.construct (verbose_output verbose_callback add_newline : Bool) : Loggable where
  verbose_output := verbose_output
  verbose_callback := verbose_callback
  logFileName := none
  print_timestamps := true
  erase_on_beginning := false
  file_output_only := false
  log_file_written := false
  add_newline := add_newline

/-- Event codes for evaluating the definitions: `'E'`, `'W'`, `'I'`, delimiter of 80 dashes. -/
def exampleConstants : LogConstants where
  HERMES_EC_ERROR := 'E'
  HERMES_EC_WARNING := 'W'
  HERMES_EC_INFO := 'I'
  HERMES_LOG_FILE_DELIM_SIZE := 80

/-- An environment without a static log file name. -/
def exampleEnvironment : LogEnvironment where
  staticLogFileName := none
  fopen_succeeds := fun _ _ => true
  time_buf := "261101-05:00"

end Hermes.Mixins

namespace Hermes.Solvers

variable {D K : Type}

/-! ## Loop and array lemmas -/

theorem forLoop_zero {σ : Type} (body : Nat → σ → σ) (init : σ) :
    forLoop 0 body init = init := by
  simp [forLoop]

theorem forLoop_succ {σ : Type} (n : Nat) (body : Nat → σ → σ) (init : σ) :
    forLoop (n + 1) body init = body n (forLoop n body init) := by
  simp [forLoop, List.range_succ, List.foldl_append]

theorem forLoopFrom_self {σ : Type} (lo : Nat) (body : Nat → σ → σ) (init : σ) :
    forLoopFrom lo lo body init = init := by
  simp [forLoopFrom]

theorem forLoopFrom_succ {σ : Type} (lo hi : Nat) (h : lo ≤ hi) (body : Nat → σ → σ)
    (init : σ) :
    forLoopFrom lo (hi + 1) body init = body hi (forLoopFrom lo hi body init) := by
  have e : hi + 1 - lo = (hi - lo) + 1 := by omega
  have e2 : lo + (hi - lo) = hi := by omega
  simp [forLoopFrom, e, List.range'_concat, List.foldl_append, e2]

theorem rd_set_eq {α : Type} [Zero α] (a : List α) (i : Nat) (v : α) (h : i < a.length) :
    rd (a.set i v) i = v := by
  simp [rd, List.getD_eq_getElem?_getD, List.getElem?_set, h]

theorem rd_set_ne {α : Type} [Zero α] (a : List α) (i j : Nat) (v : α) (h : i ≠ j) :
    rd (a.set i v) j = rd a j := by
  simp [rd, List.getD_eq_getElem?_getD, List.getElem?_set, h]

section UpdateProofs
variable [LinearOrderedField D] [Field K]

/-- Invariant of the loop of `update_solution_return_change_norm` after `m` passes. -/
theorem update_solution_loop_inv (ops : ScalarOps D K) (d : D) (c x : List K) (m : Nat)
    (hm : m ≤ x.length) :
    (forLoop m (update_solution_body ops d c) ((0 : D), x)).1
        = ∑ i in Finset.range m, (ops.abs (rd c i - rd x i)) ^ 2
    ∧ (forLoop m (update_solution_body ops d c) ((0 : D), x)).2.length = x.length
    ∧ ∀ i, rd (forLoop m (update_solution_body ops d c) ((0 : D), x)).2 i
        = if i < m then rd x i + ops.ofDouble d * (rd c i - rd x i) else rd x i := by
  induction m with
  | zero => simp [forLoop_zero]
  | succ m ih =>
    obtain ⟨h1, h2, h3⟩ := ih (by omega)
    rw [forLoop_succ]
    have hxm : rd (forLoop m (update_solution_body ops d c) ((0 : D), x)).2 m = rd x m := by
      rw [h3 m]; simp
    refine ⟨?_, ?_, ?_⟩
    · simp only [update_solution_body, h1, hxm, Finset.sum_range_succ]
    · simp [update_solution_body, h2]
    · intro i
      by_cases hi : i = m
      · subst hi
        simp only [update_solution_body]
        rw [rd_set_eq _ _ _ (by omega), hxm]
        simp
      · simp only [update_solution_body]
        rw [rd_set_ne _ _ _ _ (Ne.symm hi), h3 i]
        by_cases hlt : i < m
        · have : i < m + 1 := by omega
          simp [hlt, this]
        · have : ¬ i < m + 1 := by omega
          simp [hlt, this]

end UpdateProofs

section UpdateTheorems
variable [LinearOrderedField D] [Field K]

/-- C1: for a current vector and a candidate `c` of length `problem_size` and the last entry
`d` of the damping-factor history, `update_solution_return_change_norm` returns
`d * sqrt (sum_i |c[i] - x[i]|^2)` with `x` the vector before the call, and leaves
`x[i] + d * (c[i] - x[i])` in every component `i` of the solution vector (`|.|` is
`std::abs` of the scalar type, the magnitude for a complex scalar). -/
theorem update_solution_return_change_norm_spec (ops : ScalarOps D K)
    (s : PicardMatrixSolver D K) (c : List K) (d : D)
    (hx : s.sln_vector.length = s.problem_size) (hc : c.length = s.problem_size)
    (hd : s.p_damping_factors.getLast? = some d) :
    (update_solution_return_change_norm ops s c).1
        = d * ops.sqrt
            (∑ i in Finset.range s.problem_size, (ops.abs (rd c i - rd s.sln_vector i)) ^ 2)
    ∧ (update_solution_return_change_norm ops s c).2.sln_vector.length = s.problem_size
    ∧ ∀ i, i < s.problem_size →
        rd (update_solution_return_change_norm ops s c).2.sln_vector i
          = rd s.sln_vector i + ops.ofDouble d * (rd c i - rd s.sln_vector i) := by
  have _ := hc
  have hd0 : s.p_damping_factors.getLastD 0 = d := by
    rw [List.getLastD_eq_getLast?, hd]; rfl
  obtain ⟨h1, h2, h3⟩ :=
    update_solution_loop_inv ops d c s.sln_vector s.problem_size (le_of_eq hx.symm)
  simp only [update_solution_return_change_norm, hd0]
  refine ⟨?_, ?_, ?_⟩
  · rw [h1, mul_comm]
  · rw [h2, hx]
  · intro i hi
    rw [h3 i, if_pos hi]

/-- C1 at a concrete input: `x = [1, 5]`, `c = [4, 9]`, damping history `[1, 1/2]`. -/
theorem update_solution_return_change_norm_spec_witness :
    (update_solution_return_change_norm ratOps
        { ratSolver with problem_size := 2, sln_vector := [1, 5], p_damping_factors := [1, 1/2] }
        [4, 9]).1
      = (1/2 : ℚ) * ratOps.sqrt
          (∑ i in Finset.range 2, (ratOps.abs (rd [(4:ℚ), 9] i - rd [(1:ℚ), 5] i)) ^ 2)
    ∧ (update_solution_return_change_norm ratOps
        { ratSolver with problem_size := 2, sln_vector := [1, 5], p_damping_factors := [1, 1/2] }
        [4, 9]).2.sln_vector.length = 2
    ∧ ∀ i, i < 2 →
        rd (update_solution_return_change_norm ratOps
          { ratSolver with problem_size := 2, sln_vector := [1, 5],
                           p_damping_factors := [1, 1/2] } [4, 9]).2.sln_vector i
          = rd [(1:ℚ), 5] i + ratOps.ofDouble (1/2) * (rd [(4:ℚ), 9] i - rd [(1:ℚ), 5] i) :=
  update_solution_return_change_norm_spec ratOps
    { ratSolver with problem_size := 2, sln_vector := [1, 5], p_damping_factors := [1, 1/2] }
    [4, 9] (1/2) rfl rfl rfl

end UpdateTheorems

/-- The complex instantiation of `update_solution_return_change_norm`: with `std::abs` the
complex magnitude and `std::sqrt` the real square root, the returned value is the damping
factor times the Euclidean norm of the difference of candidate and current vector. -/
theorem update_solution_return_change_norm_complex (s : PicardMatrixSolver ℝ ℂ) (c : List ℂ)
    (d : ℝ) (hx : s.sln_vector.length = s.problem_size)
    (hd : s.p_damping_factors.getLast? = some d) :
    (update_solution_return_change_norm
        (⟨fun r => (r : ℂ), fun z => Complex.abs z, Real.sqrt⟩ : ScalarOps ℝ ℂ) s c).1
      = d * Real.sqrt
          (∑ i in Finset.range s.problem_size, Complex.abs (rd c i - rd s.sln_vector i) ^ 2) := by
  have hd0 : s.p_damping_factors.getLastD 0 = d := by
    rw [List.getLastD_eq_getLast?, hd]; rfl
  obtain ⟨h1, _, _⟩ := update_solution_loop_inv
    (⟨fun r => (r : ℂ), fun z => Complex.abs z, Real.sqrt⟩ : ScalarOps ℝ ℂ) d c s.sln_vector
    s.problem_size (le_of_eq hx.symm)
  simp only [update_solution_return_change_norm, hd0]
  rw [h1, mul_comm]

theorem rd_set {α : Type} [Zero α] (a : List α) (i j : Nat) (v : α) :
    rd (a.set i v) j = if i = j ∧ i < a.length then v else rd a j := by
  by_cases h : i = j
  · subst h
    by_cases hl : i < a.length
    · simp [rd_set_eq _ _ _ hl, hl]
    · have hn : a[i]? = none := List.getElem?_eq_none (by omega)
      simp [hl, rd, List.getD_eq_getElem?_getD, List.getElem?_set, hn]
  · simp [h, rd_set_ne _ _ _ _ h]

section CoeffProofs
variable [Field K]

/-- Invariant of the loop of `calculate_anderson_coeffs` that copies the solved vector into
the coefficients and sums it, after `m` passes. -/
theorem coeff_loop_inv (rhs coeffs : List K) (m : Nat) (hm : m ≤ coeffs.length) :
    (forLoop m (fun i (cs : List K × K) => (cs.1.set i (rd rhs i), cs.2 + rd rhs i))
        (coeffs, 0)).1.length = coeffs.length
    ∧ (forLoop m (fun i (cs : List K × K) => (cs.1.set i (rd rhs i), cs.2 + rd rhs i))
        (coeffs, 0)).2 = ∑ i in Finset.range m, rd rhs i
    ∧ ∀ i, rd (forLoop m (fun i (cs : List K × K) => (cs.1.set i (rd rhs i), cs.2 + rd rhs i))
        (coeffs, 0)).1 i = if i < m then rd rhs i else rd coeffs i := by
  induction m with
  | zero => simp [forLoop_zero]
  | succ m ih =>
    obtain ⟨h1, h2, h3⟩ := ih (by omega)
    rw [forLoop_succ]
    refine ⟨by simp [h1], by simp [h2, Finset.sum_range_succ], ?_⟩
    intro i
    simp only [rd_set, h1, h3 i]
    by_cases hi : m = i
    · subst hi
      have : m < coeffs.length := by omega
      simp [this]
    · have : (i < m + 1) = (i < m) := by
        apply propext; constructor <;> intro h <;> omega
      simp [hi, this]

end CoeffProofs

section CoeffTheorems
variable [Field K]

/-- What `store_anderson_coeffs` leaves in a coefficient array with more than `n` entries. -/
theorem store_anderson_coeffs_spec (rhs coeffs : List K) (n : Nat) (hn : n < coeffs.length) :
    (store_anderson_coeffs rhs coeffs n).length = coeffs.length
    ∧ (∀ i, i < n → rd (store_anderson_coeffs rhs coeffs n) i = rd rhs i)
    ∧ rd (store_anderson_coeffs rhs coeffs n) n = 1 - ∑ i in Finset.range n, rd rhs i := by
  obtain ⟨h1, hsum, h3⟩ := coeff_loop_inv rhs coeffs n (by omega)
  simp only [store_anderson_coeffs]
  refine ⟨by simp [h1], ?_, ?_⟩
  · intro i hi
    rw [rd_set_ne _ _ _ _ (by omega), h3 i, if_pos hi]
  · rw [rd_set_eq _ _ _ (by rw [h1]; exact hn), hsum]

/-- C2: for a memory depth `num_last_vectors_used >= 2` and any memory content for which the
dense solve returns, the `num_last_vectors_used - 1` entries of `anderson_coeffs` left by
`calculate_anderson_coeffs` sum to 1, whatever the dense routines computed. -/
theorem calculate_anderson_coeffs_sum_one (dense : DenseMatrixOperations K)
    (s : PicardMatrixSolver D K) (hN : 2 ≤ s.num_last_vectors_used)
    (hlen : s.anderson_coeffs.length = s.num_last_vectors_used - 1)
    (hret : (calculate_anderson_coeffs dense s).thrown = none) :
    (calculate_anderson_coeffs dense s).state.anderson_coeffs.length
        = s.num_last_vectors_used - 1
    ∧ ∑ i in Finset.range (s.num_last_vectors_used - 1),
        rd (calculate_anderson_coeffs dense s).state.anderson_coeffs i = 1 := by
  by_cases h2 : s.num_last_vectors_used = 2
  · have hl1 : s.anderson_coeffs.length = 1 := by rw [hlen, h2]
    simp [calculate_anderson_coeffs, h2, hl1, rd_set]
  · simp only [calculate_anderson_coeffs, h2, if_false] at hret ⊢
    cases hlu : dense.ludcmp
        (anderson_system s.previous_vectors s.problem_size (s.num_last_vectors_used - 2)).1
        (s.num_last_vectors_used - 2) with
    | error e => simp [hlu] at hret
    | ok mp =>
      obtain ⟨mat, perm⟩ := mp
      simp only []
      obtain ⟨h1, h2, h3⟩ := store_anderson_coeffs_spec
        (dense.lubksb mat (s.num_last_vectors_used - 2) perm
          (anderson_system s.previous_vectors s.problem_size (s.num_last_vectors_used - 2)).2)
        s.anderson_coeffs (s.num_last_vectors_used - 2) (by omega)
      have e : s.num_last_vectors_used - 1 = (s.num_last_vectors_used - 2) + 1 := by omega
      refine ⟨by rw [h1, hlen], ?_⟩
      rw [e, Finset.sum_range_succ, h3,
        Finset.sum_congr rfl (fun i hi => h2 i (Finset.mem_range.mp hi))]
      ring

/-- C2 at a concrete input: depth 3, memory `[0], [1], [3]`, the dense LU solve. -/
theorem calculate_anderson_coeffs_sum_one_witness :
    (calculate_anderson_coeffs (denseLU ratOps)
        { ratSolver with problem_size := 1, previous_vectors := [[0], [1], [3]],
                         anderson_coeffs := [0, 0] }).state.anderson_coeffs.length = 3 - 1
    ∧ ∑ i in Finset.range (3 - 1),
        rd (calculate_anderson_coeffs (denseLU ratOps)
          { ratSolver with problem_size := 1, previous_vectors := [[0], [1], [3]],
                           anderson_coeffs := [0, 0] }).state.anderson_coeffs i = 1 :=
  calculate_anderson_coeffs_sum_one (denseLU ratOps)
    { ratSolver with problem_size := 1, previous_vectors := [[0], [1], [3]],
                     anderson_coeffs := [0, 0] }
    (by decide) rfl (by decide!)

/-- C3: with `num_last_vectors_used = 2`, `calculate_anderson_coeffs` returns without an
exception, changes nothing but `anderson_coeffs[0]`, which it sets to 1, and its outcome is
the same for every pair of dense routines (none is called), whatever the memory holds. -/
theorem calculate_anderson_coeffs_depth_two (dense : DenseMatrixOperations K)
    (s : PicardMatrixSolver D K) (hN : s.num_last_vectors_used = 2)
    (hlen : s.anderson_coeffs.length = s.num_last_vectors_used - 1) :
    (calculate_anderson_coeffs dense s).thrown = none
    ∧ (calculate_anderson_coeffs dense s).state = { s with anderson_coeffs := [1] }
    ∧ rd (calculate_anderson_coeffs dense s).state.anderson_coeffs 0 = 1
    ∧ ∀ dense2 : DenseMatrixOperations K,
        calculate_anderson_coeffs dense2 s = calculate_anderson_coeffs dense s := by
  have hl1 : s.anderson_coeffs.length = 1 := by rw [hlen, hN]
  have hs : s.anderson_coeffs.set 0 1 = [1] := by
    match hc : s.anderson_coeffs, hl1 with
    | [_], _ => rfl
  simp [calculate_anderson_coeffs, hN, hs, rd]

/-- C3 at a concrete input: two identical vectors in memory and dense routines that always
throw. -/
theorem calculate_anderson_coeffs_depth_two_witness :
    (calculate_anderson_coeffs
        ⟨fun _ _ => Except.error Exception.SingularSystem, fun _ _ _ b => b⟩
        { ratSolver with problem_size := 2, num_last_vectors_used := 2,
                         previous_vectors := [[4, 7], [4, 7]], anderson_coeffs := [0] }).thrown
      = none
    ∧ rd (calculate_anderson_coeffs
        ⟨fun _ _ => Except.error Exception.SingularSystem, fun _ _ _ b => b⟩
        { ratSolver with problem_size := 2, num_last_vectors_used := 2,
                         previous_vectors := [[4, 7], [4, 7]], anderson_coeffs := [0]
                         }).state.anderson_coeffs 0 = 1 :=
  have h := calculate_anderson_coeffs_depth_two
    ⟨fun _ _ => Except.error Exception.SingularSystem, fun _ _ _ b => b⟩
    { ratSolver with problem_size := 2, num_last_vectors_used := 2,
                     previous_vectors := [[4, 7], [4, 7]], anderson_coeffs := [0] }
    rfl rfl
  ⟨h.1, h.2.2.1⟩

end CoeffTheorems

section FrameTheorems
variable [LinearOrderedField D] [Field K]

/-- C4: with `anderson_is_on = false`, `handle_previous_vectors` returns without an exception
and leaves every data member as it was (solution vector, memory, `vec_in_memory`,
coefficients, stored accelerated vector), and so does `init_anderson`. -/
theorem anderson_off_is_noop (ops : ScalarOps D K) (dense : DenseMatrixOperations K)
    (s : PicardMatrixSolver D K) (hoff : s.anderson_is_on = false) :
    (handle_previous_vectors ops dense s).thrown = none
    ∧ (handle_previous_vectors ops dense s).state = s
    ∧ init_anderson s = s := by
  simp [handle_previous_vectors, init_anderson, hoff]

/-- C4 at a concrete input: a solver with Anderson off and a non-trivial state. -/
theorem anderson_off_is_noop_witness :
    (handle_previous_vectors ratOps (denseLU ratOps)
        { ratSolver with problem_size := 1, sln_vector := [3], vec_in_memory := 2,
                         previous_vectors := [[0], [1], [0]], anderson_coeffs := [5, 6],
                         previous_Anderson_sln_vector := [9] }).state
      = { ratSolver with problem_size := 1, sln_vector := [3], vec_in_memory := 2,
                         previous_vectors := [[0], [1], [0]], anderson_coeffs := [5, 6],
                         previous_Anderson_sln_vector := [9] } :=
  (anderson_off_is_noop ratOps (denseLU ratOps)
    { ratSolver with problem_size := 1, sln_vector := [3], vec_in_memory := 2,
                     previous_vectors := [[0], [1], [0]], anderson_coeffs := [5, 6],
                     previous_Anderson_sln_vector := [9] } rfl).2.1

end FrameTheorems

section DampingTheorems
variable [LinearOrderedField D]

/-- C10: with the overloaded flag on and a solution-change-norm history that ends with
`previous_norm, last_norm`, `damping_factor_condition` returns true if and only if
`last_norm < previous_norm * sufficient_improvement_factor`; equal values give false. -/
theorem damping_factor_condition_iff (base : PicardMatrixSolver D K → Bool)
    (s : PicardMatrixSolver D K) (hist : List D) (previous_norm last_norm : D)
    (hflag : s.damping_factor_condition_overloaded = true)
    (hnorms : s.solution_change_norms = hist ++ [previous_norm, last_norm]) :
    (damping_factor_condition base s = true
        ↔ last_norm < previous_norm * s.sufficient_improvement_factor)
    ∧ (last_norm = previous_norm * s.sufficient_improvement_factor →
        damping_factor_condition base s = false) := by
  have hlen : s.solution_change_norms.length = hist.length + 2 := by simp [hnorms]
  have h1 : rd s.solution_change_norms (s.solution_change_norms.length - 1) = last_norm := by
    have e : hist.length + 2 - 1 = hist.length + 1 := by omega
    rw [hnorms]
    simp only [rd, List.getD_eq_getElem?_getD, List.length_append, List.length_cons,
      List.length_nil, e]
    rw [List.getElem?_append_right (by omega)]
    simp
  have h2 : rd s.solution_change_norms (s.solution_change_norms.length - 2)
      = previous_norm := by
    have e : hist.length + 2 - 2 = hist.length := by omega
    rw [hnorms]
    simp only [rd, List.getD_eq_getElem?_getD, List.length_append, List.length_cons,
      List.length_nil, e]
    rw [List.getElem?_append_right (by omega)]
    simp
  have hne : s.solution_change_norms.length ≠ 1 := by omega
  have hval : damping_factor_condition base s
      = decide (last_norm < previous_norm * s.sufficient_improvement_factor) := by
    simp only [damping_factor_condition, hflag, if_true, hne, if_false, h1, h2]
  refine ⟨by rw [hval]; simp, ?_⟩
  intro heq
  rw [hval, heq]
  simp

/-- C10 at a concrete input: norms `4, 2, 2` with the default factor 1.05. -/
theorem damping_factor_condition_iff_witness :
    (damping_factor_condition (fun _ => false)
        { ratSolver with solution_change_norms := [4, 2, 2] } = true
      ↔ (2 : ℚ) < 2 * (105 / 100)) :=
  (damping_factor_condition_iff (fun _ => false)
    { ratSolver with solution_change_norms := [4, 2, 2] } [4] 2 2 rfl rfl).1

end DampingTheorems

theorem row_set {α : Type} (a : List (List α)) (i j : Nat) (v : List α) :
    row (a.set i v) j = if i = j ∧ i < a.length then v else row a j := by
  by_cases h : i = j
  · subst h
    by_cases hl : i < a.length
    · simp [row, List.getD_eq_getElem?_getD, List.getElem?_set, hl]
    · have hn : a[i]? = none := List.getElem?_eq_none (by omega)
      simp [hl, row, List.getD_eq_getElem?_getD, List.getElem?_set, hn]
  · simp [h, row, List.getD_eq_getElem?_getD, List.getElem?_set]

theorem row_eq_getElem {α : Type} (a : List (List α)) (i : Nat) (h : i < a.length) :
    row a i = a[i] := by
  simp [row, List.getD_eq_getElem?_getD, List.getElem?_eq_getElem h]

theorem rd_eq_getElem {α : Type} [Zero α] (a : List α) (i : Nat) (h : i < a.length) :
    rd a i = a[i] := by
  simp [rd, List.getD_eq_getElem?_getD, List.getElem?_eq_getElem h]

/-- Two arrays of arrays of the same length with the same rows are equal. -/
theorem ext_row {α : Type} (a b : List (List α)) (hlen : a.length = b.length)
    (h : ∀ i, i < a.length → row a i = row b i) : a = b := by
  apply List.ext_getElem hlen
  intro i h1 h2
  rw [← row_eq_getElem a i h1, ← row_eq_getElem b i h2]
  exact h i h1

/-- Two arrays of the same length with the same entries are equal. -/
theorem ext_rd {α : Type} [Zero α] (a b : List α) (hlen : a.length = b.length)
    (h : ∀ i, i < a.length → rd a i = rd b i) : a = b := by
  apply List.ext_getElem hlen
  intro i h1 h2
  rw [← rd_eq_getElem a i h1, ← rd_eq_getElem b i h2]
  exact h i h1

theorem memcpy_full {α : Type} (dst src : List α) (n : Nat) (hd : dst.length ≤ n)
    (hs : src.length = n) : memcpy dst src n = src := by
  simp [memcpy, List.take_of_length_le (le_of_eq hs), List.drop_eq_nil_of_le hd]

/-- Invariant of the loop of `handle_previous_vectors` that shifts the memory back, after `m`
passes. -/
theorem shift_loop_inv {α : Type} (pv : List (List α)) (m : Nat) :
    (forLoop m (fun i (pv : List (List α)) => pv.set i (row pv (i + 1))) pv).length
        = pv.length
    ∧ ∀ i, row (forLoop m (fun i (pv : List (List α)) => pv.set i (row pv (i + 1))) pv) i
        = if i < m then row pv (i + 1) else row pv i := by
  induction m with
  | zero => simp [forLoop_zero]
  | succ m ih =>
    obtain ⟨h1, h2⟩ := ih
    rw [forLoop_succ]
    refine ⟨by simp [h1], ?_⟩
    intro i
    rw [row_set, h1, h2 (m + 1), h2 i]
    by_cases hi : m = i
    · subst hi
      by_cases hl : m < pv.length
      · simp [hl]
      · have e1 : row pv m = [] := by
          simp [row, List.getD_eq_getElem?_getD, List.getElem?_eq_none (not_lt.mp hl)]
        have e2 : row pv (m + 1) = [] := by
          simp [row, List.getD_eq_getElem?_getD,
            List.getElem?_eq_none (by omega : pv.length ≤ m + 1)]
        simp [hl, e1, e2]
    · have : (i < m + 1) = (i < m) := by
        apply propext; constructor <;> intro h <;> omega
      simp [hi, this]

section MemoryTheorems

/-- The memory after `store_new_vector` on a memory that is not full. -/
theorem store_new_vector_not_full (s : PicardMatrixSolver D K)
    (hpv : s.previous_vectors.length = s.num_last_vectors_used)
    (hslots : ∀ i, (row s.previous_vectors i).length ≤ s.problem_size)
    (hsln : s.sln_vector.length = s.problem_size)
    (hk : s.vec_in_memory < s.num_last_vectors_used) :
    (store_new_vector s).vec_in_memory = s.vec_in_memory + 1
    ∧ (store_new_vector s).previous_vectors.take (s.vec_in_memory + 1)
        = s.previous_vectors.take s.vec_in_memory ++ [s.sln_vector] := by
  simp only [store_new_vector, hk, if_true, true_and]
  rw [memcpy_full _ _ _ (hslots _) hsln, List.set_eq_take_append_cons_drop,
    if_pos (by omega)]
  have hl : (List.take s.vec_in_memory s.previous_vectors).length = s.vec_in_memory := by
    simp; omega
  rw [List.take_append_eq_append_take, hl]
  simp [List.take_take]

/-- The memory after `store_new_vector` on a full memory. -/
theorem store_new_vector_full (s : PicardMatrixSolver D K)
    (hN : 1 ≤ s.num_last_vectors_used)
    (hpv : s.previous_vectors.length = s.num_last_vectors_used)
    (hslots : ∀ i, (row s.previous_vectors i).length ≤ s.problem_size)
    (hsln : s.sln_vector.length = s.problem_size)
    (hk : s.num_last_vectors_used ≤ s.vec_in_memory) :
    (store_new_vector s).vec_in_memory = s.vec_in_memory
    ∧ (store_new_vector s).previous_vectors = s.previous_vectors.drop 1 ++ [s.sln_vector] := by
  have hnk : ¬ s.vec_in_memory < s.num_last_vectors_used := by omega
  simp only [store_new_vector, hnk, if_false, true_and]
  obtain ⟨h1, h2⟩ := shift_loop_inv s.previous_vectors (s.num_last_vectors_used - 1)
  rw [memcpy_full _ _ _ (hslots _) hsln]
  apply ext_row
  · simp [h1]; omega
  · intro i hi
    simp only [List.length_set, h1] at hi
    rw [row_set, List.length_set, h1, row_set, h1, h2 i]
    by_cases hlast : s.num_last_vectors_used - 1 = i
    · have hlt : s.num_last_vectors_used - 1 < s.previous_vectors.length := by omega
      subst hlast
      simp only [hlt, and_self, if_true]
      simp [row, List.getD_eq_getElem?_getD, List.getElem?_append_right, hpv]
    · have hlt : i < s.num_last_vectors_used - 1 := by omega
      simp only [hlast, false_and, if_false, hlt, if_true]
      have hl2 : i < (List.drop 1 s.previous_vectors).length := by simp; omega
      rw [row, row, List.getD_eq_getElem?_getD, List.getD_eq_getElem?_getD,
        List.getElem?_append_left hl2, List.getElem?_drop, add_comm]

end MemoryTheorems

section CoeffFrame
variable [Field K]

/-- Member `calculate_anderson_coeffs` writes to no data member but `anderson_coeffs`. -/
theorem calculate_anderson_coeffs_frame (dense : DenseMatrixOperations K)
    (s : PicardMatrixSolver D K) :
    ∃ c : List K, (calculate_anderson_coeffs dense s).state = { s with anderson_coeffs := c } := by
  simp only [calculate_anderson_coeffs]
  split
  · exact ⟨_, rfl⟩
  · split
    · exact ⟨s.anderson_coeffs, rfl⟩
    · exact ⟨_, rfl⟩

end CoeffFrame

section HandleFrame
variable [LinearOrderedField D] [Field K]

/-- With Anderson on, the memory, its occupancy and the solution vector after
`handle_previous_vectors` are those after its first part, `store_new_vector`. -/
theorem handle_previous_vectors_memory (ops : ScalarOps D K) (dense : DenseMatrixOperations K)
    (s : PicardMatrixSolver D K) (hon : s.anderson_is_on = true) :
    (handle_previous_vectors ops dense s).state.previous_vectors
        = (store_new_vector s).previous_vectors
    ∧ (handle_previous_vectors ops dense s).state.vec_in_memory
        = (store_new_vector s).vec_in_memory
    ∧ (handle_previous_vectors ops dense s).state.sln_vector
        = (store_new_vector s).sln_vector := by
  obtain ⟨c, hc⟩ := calculate_anderson_coeffs_frame dense (store_new_vector s)
  simp only [handle_previous_vectors, hon, if_true]
  split
  · split <;> simp [hc]
  · simp

/-- C9: with Anderson on and an allocated memory of `N = num_last_vectors_used` slots, a call
of `handle_previous_vectors` on a memory that holds `k < N` vectors leaves the same `k`
vectors followed by a copy of the current solution vector (and `vec_in_memory = k + 1`); on
a full memory `[v0, v1, ..., v(N-1)]` it leaves `[v1, ..., v(N-1), x]` with `x` a copy of
the current solution vector: the oldest vector is dropped and the order is kept. -/
theorem handle_previous_vectors_push (ops : ScalarOps D K) (dense : DenseMatrixOperations K)
    (s : PicardMatrixSolver D K) (hon : s.anderson_is_on = true)
    (hN : 1 ≤ s.num_last_vectors_used)
    (hpv : s.previous_vectors.length = s.num_last_vectors_used)
    (hslots : ∀ i, i < s.num_last_vectors_used →
      (row s.previous_vectors i).length = s.problem_size)
    (hsln : s.sln_vector.length = s.problem_size) :
    (s.vec_in_memory < s.num_last_vectors_used →
      (handle_previous_vectors ops dense s).state.vec_in_memory = s.vec_in_memory + 1
      ∧ (handle_previous_vectors ops dense s).state.previous_vectors.take (s.vec_in_memory + 1)
          = s.previous_vectors.take s.vec_in_memory ++ [s.sln_vector])
    ∧ (s.vec_in_memory = s.num_last_vectors_used →
      (handle_previous_vectors ops dense s).state.vec_in_memory = s.num_last_vectors_used
      ∧ (handle_previous_vectors ops dense s).state.previous_vectors
          = s.previous_vectors.drop 1 ++ [s.sln_vector]) := by
  obtain ⟨h1, h2, _⟩ := handle_previous_vectors_memory ops dense s hon
  have hslots2 : ∀ i, (row s.previous_vectors i).length ≤ s.problem_size := by
    intro i
    by_cases hi : i < s.num_last_vectors_used
    · exact le_of_eq (hslots i hi)
    · simp [row, List.getD_eq_getElem?_getD,
        List.getElem?_eq_none (by omega : s.previous_vectors.length ≤ i)]
  rw [h1, h2]
  refine ⟨fun hk => store_new_vector_not_full s hpv hslots2 hsln hk, fun hk => ?_⟩
  have := store_new_vector_full s hN hpv hslots2 hsln (le_of_eq hk.symm)
  rw [this.1, this.2]
  exact ⟨hk, rfl⟩

/-- C9 at a concrete input: depth 3, full memory `[0], [1], [3]`, solution vector `[7]`. -/
theorem handle_previous_vectors_push_witness :
    (handle_previous_vectors ratOps (denseLU ratOps)
        { ratSolver with problem_size := 1, sln_vector := [7], anderson_is_on := true,
                         vec_in_memory := 3, previous_vectors := [[0], [1], [3]],
                         anderson_coeffs := [0, 0],
                         previous_Anderson_sln_vector := [0] }).state.previous_vectors
      = [[1], [3], [7]] :=
  ((handle_previous_vectors_push ratOps (denseLU ratOps)
    { ratSolver with problem_size := 1, sln_vector := [7], anderson_is_on := true,
                     vec_in_memory := 3, previous_vectors := [[0], [1], [3]],
                     anderson_coeffs := [0, 0], previous_Anderson_sln_vector := [0] }
    rfl (by decide) rfl (by decide) rfl).2 rfl).2

end HandleFrame

theorem forLoopFrom_of_le {σ : Type} (lo hi : Nat) (h : hi ≤ lo) (body : Nat → σ → σ)
    (init : σ) : forLoopFrom lo hi body init = init := by
  have e : hi - lo = 0 := by omega
  simp [forLoopFrom, e]

theorem forLoopFrom_zero {σ : Type} (n : Nat) (body : Nat → σ → σ) (init : σ) :
    forLoopFrom 0 n body init = forLoop n body init := by
  simp [forLoopFrom, forLoop, List.range_eq_range']

/-- A loop `for (j = lo; j < hi; j++) v[i] += t(j)` adds the sum of the terms to `v[i]` and
leaves the rest of `v` alone. -/
theorem accumulate_loop {α : Type} [AddCommMonoid α] (t : Nat → α) (i lo : Nat) (v : List α)
    (hi : i < v.length) (hi2 : Nat) :
    (forLoopFrom lo hi2 (fun j (v : List α) => v.set i (rd v i + t j)) v).length = v.length
    ∧ rd (forLoopFrom lo hi2 (fun j (v : List α) => v.set i (rd v i + t j)) v) i
        = rd v i + ∑ j in Finset.Ico lo hi2, t j
    ∧ ∀ k, k ≠ i →
        rd (forLoopFrom lo hi2 (fun j (v : List α) => v.set i (rd v i + t j)) v) k = rd v k := by
  induction hi2 with
  | zero => simp [forLoopFrom_of_le]
  | succ m ih =>
    by_cases hm : lo ≤ m
    · obtain ⟨h1, h2, h3⟩ := ih
      rw [forLoopFrom_succ lo m hm]
      refine ⟨by simp [h1], ?_, ?_⟩
      · rw [rd_set_eq _ _ _ (by omega), h2, Finset.sum_Ico_succ_top hm, add_assoc]
      · intro k hk
        rw [rd_set_ne _ _ _ _ (Ne.symm hk), h3 k hk]
    · have hle : m + 1 ≤ lo := by omega
      rw [forLoopFrom_of_le lo (m + 1) hle, Finset.Ico_eq_empty (by omega)]
      simp

/-- A loop `for (k = 0; k < n; k++) val += t(k)` started at zero computes the sum. -/
theorem sum_loop {α : Type} [AddCommMonoid α] (t : Nat → α) (n : Nat) :
    forLoop n (fun k (val : α) => val + t k) 0 = ∑ k in Finset.range n, t k := by
  induction n with
  | zero => simp [forLoop_zero]
  | succ m ih => rw [forLoop_succ, ih, Finset.sum_range_succ]

section Combination
variable [LinearOrderedField D] [Field K]

/-- Invariant of the outer loop of the combination in `handle_previous_vectors`, after `m`
passes: the first `m` components hold the accelerated vector. -/
theorem anderson_combination_inv (ops : ScalarOps D K) (s : PicardMatrixSolver D K) (m : Nat)
    (hm : m ≤ s.previous_Anderson_sln_vector.length) :
    (forLoop m
      (fun i (v : List K) =>
        forLoopFrom 1 s.num_last_vectors_used
          (fun j (v : List K) =>
            v.set i (rd v i
              + (rd s.anderson_coeffs (j - 1) * rd (row s.previous_vectors j) i
                - ops.ofDouble (1 - s.anderson_beta) * rd s.anderson_coeffs (j - 1)
                  * (rd (row s.previous_vectors j) i
                    - rd (row s.previous_vectors (j - 1)) i))))
          (v.set i 0))
      s.previous_Anderson_sln_vector).length = s.previous_Anderson_sln_vector.length
    ∧ ∀ k, rd (forLoop m
      (fun i (v : List K) =>
        forLoopFrom 1 s.num_last_vectors_used
          (fun j (v : List K) =>
            v.set i (rd v i
              + (rd s.anderson_coeffs (j - 1) * rd (row s.previous_vectors j) i
                - ops.ofDouble (1 - s.anderson_beta) * rd s.anderson_coeffs (j - 1)
                  * (rd (row s.previous_vectors j) i
                    - rd (row s.previous_vectors (j - 1)) i))))
          (v.set i 0))
      s.previous_Anderson_sln_vector) k
      = if k < m then
          spec_x_accelerated ops s.previous_vectors s.anderson_coeffs s.anderson_beta
            s.num_last_vectors_used k
        else rd s.previous_Anderson_sln_vector k := by
  induction m with
  | zero => simp [forLoop_zero]
  | succ m ih =>
    obtain ⟨h1, h2⟩ := ih (by omega)
    rw [forLoop_succ]
    generalize forLoop m _ s.previous_Anderson_sln_vector = v at h1 h2 ⊢
    obtain ⟨a1, a2, a3⟩ := accumulate_loop
      (fun j => rd s.anderson_coeffs (j - 1) * rd (row s.previous_vectors j) m
        - ops.ofDouble (1 - s.anderson_beta) * rd s.anderson_coeffs (j - 1)
          * (rd (row s.previous_vectors j) m - rd (row s.previous_vectors (j - 1)) m))
      m 1 (v.set m 0) (by simp [h1]; omega) s.num_last_vectors_used
    refine ⟨by rw [a1]; simp [h1], ?_⟩
    intro k
    by_cases hk : k = m
    · subst hk
      rw [a2, rd_set_eq _ _ _ (by omega)]
      simp [spec_x_accelerated]
    · rw [a3 k hk, rd_set_ne _ _ _ _ (Ne.symm hk), h2 k]
      have : (k < m + 1) = (k < m) := by
        apply propext; constructor <;> intro h <;> omega
      simp [this]

/-- The vector `anderson_combination` computes into an allocated buffer is the accelerated
vector of the specification. -/
theorem anderson_combination_eq (ops : ScalarOps D K) (s : PicardMatrixSolver D K)
    (hbuf : s.previous_Anderson_sln_vector.length = s.problem_size) :
    anderson_combination ops s
      = (List.range s.problem_size).map
          (spec_x_accelerated ops s.previous_vectors s.anderson_coeffs s.anderson_beta
            s.num_last_vectors_used) := by
  obtain ⟨h1, h2⟩ := anderson_combination_inv ops s s.problem_size (le_of_eq hbuf.symm)
  apply ext_rd
  · simp only [anderson_combination, h1, hbuf]; simp
  · intro k hk
    have hk2 : k < s.problem_size := by
      simp only [anderson_combination, h1, hbuf] at hk; exact hk
    simp only [anderson_combination, h2 k, if_pos hk2]
    simp [rd, List.getD_eq_getElem?_getD, hk2]

end Combination

/-- Data members `store_new_vector` leaves alone. -/
theorem store_new_vector_frame (s : PicardMatrixSolver D K) :
    (store_new_vector s).sln_vector = s.sln_vector
    ∧ (store_new_vector s).problem_size = s.problem_size
    ∧ (store_new_vector s).num_last_vectors_used = s.num_last_vectors_used
    ∧ (store_new_vector s).anderson_beta = s.anderson_beta
    ∧ (store_new_vector s).anderson_coeffs = s.anderson_coeffs
    ∧ (store_new_vector s).previous_Anderson_sln_vector = s.previous_Anderson_sln_vector
    ∧ (store_new_vector s).vec_in_memory
        = if s.vec_in_memory < s.num_last_vectors_used then s.vec_in_memory + 1
          else s.vec_in_memory := by
  simp only [store_new_vector]
  split <;> simp

section Acceleration
variable [LinearOrderedField D] [Field K]

/-- With Anderson on, a memory that is full once the new vector is stored and a coefficient
computation that returns, `handle_previous_vectors` returns with the solution vector as it
was, the memory of `store_new_vector`, the coefficients of `calculate_anderson_coeffs` and,
in `previous_Anderson_sln_vector`, the accelerated vector of the specification computed
from that memory and those coefficients. -/
theorem handle_previous_vectors_full (ops : ScalarOps D K) (dense : DenseMatrixOperations K)
    (s : PicardMatrixSolver D K) (hon : s.anderson_is_on = true)
    (hfull : s.num_last_vectors_used ≤ s.vec_in_memory + 1)
    (hret : (handle_previous_vectors ops dense s).thrown = none)
    (hbuf : s.previous_Anderson_sln_vector.length = s.problem_size) :
    (handle_previous_vectors ops dense s).state.sln_vector = s.sln_vector
    ∧ (handle_previous_vectors ops dense s).state.previous_vectors
        = (store_new_vector s).previous_vectors
    ∧ (handle_previous_vectors ops dense s).state.anderson_coeffs
        = (calculate_anderson_coeffs dense (store_new_vector s)).state.anderson_coeffs
    ∧ (handle_previous_vectors ops dense s).state.previous_Anderson_sln_vector
        = (List.range s.problem_size).map
            (spec_x_accelerated ops (handle_previous_vectors ops dense s).state.previous_vectors
              (handle_previous_vectors ops dense s).state.anderson_coeffs s.anderson_beta
              s.num_last_vectors_used) := by
  obtain ⟨f1, f2, f3, f4, f5, f6, f7⟩ := store_new_vector_frame s
  obtain ⟨c, hc⟩ := calculate_anderson_coeffs_frame dense (store_new_vector s)
  have hge : (store_new_vector s).vec_in_memory ≥ (store_new_vector s).num_last_vectors_used := by
    rw [f7, f3]; split <;> omega
  have hcomb := anderson_combination_eq ops
    (calculate_anderson_coeffs dense (store_new_vector s)).state
    (by rw [hc]; simp only []; rw [f6, f2, hbuf])
  simp only [handle_previous_vectors, hon, if_true, hge] at hret ⊢
  cases hthr : (calculate_anderson_coeffs dense (store_new_vector s)).thrown with
  | some e => simp [hthr] at hret
  | none =>
    simp only []
    rw [hcomb]
    simp only [hc, f1, f2, f3, f4]
    exact ⟨trivial, trivial, trivial, trivial⟩

end Acceleration

section AccelerationTheorems
variable [LinearOrderedField D] [Field K]

/-- C5 as stated fails: with Anderson on, depth 3, memory `[0], [1]` and solution vector
`[3]`, the memory is full after the push and `handle_previous_vectors` returns, the
accelerated vector is `[-1]`, and the solution vector is still `[3]`. -/
theorem handle_previous_vectors_sln_vector_counterexample :
    andersonSolver.anderson_is_on = true
    ∧ (handle_previous_vectors ratOps (denseLU ratOps) andersonSolver).thrown = none
    ∧ (handle_previous_vectors ratOps (denseLU ratOps) andersonSolver).state.vec_in_memory
        = andersonSolver.num_last_vectors_used
    ∧ (handle_previous_vectors ratOps (denseLU ratOps) andersonSolver).state.previous_vectors
        = [[0], [1], [3]]
    ∧ (handle_previous_vectors ratOps (denseLU ratOps) andersonSolver).state.anderson_coeffs
        = [2, -1]
    ∧ (List.range 1).map
        (spec_x_accelerated ratOps [[0], [1], [3]] [2, -1] andersonSolver.anderson_beta 3)
        = [-1]
    ∧ (handle_previous_vectors ratOps (denseLU ratOps)
        andersonSolver).state.previous_Anderson_sln_vector = [-1]
    ∧ (handle_previous_vectors ratOps (denseLU ratOps) andersonSolver).state.sln_vector = [3]
    ∧ (handle_previous_vectors ratOps (denseLU ratOps) andersonSolver).state.sln_vector
        ≠ (handle_previous_vectors ratOps (denseLU ratOps)
            andersonSolver).state.previous_Anderson_sln_vector := by
  decide!

/-- C5 (amended): with Anderson on, a memory that is full once the new iterate is appended and a
coefficient computation that returns, `handle_previous_vectors` stores the accelerated
combination of the memory and the coefficients in `previous_Anderson_sln_vector` and leaves
the solution vector `sln_vector` unchanged. -/
theorem handle_previous_vectors_stores_accelerated (ops : ScalarOps D K)
    (dense : DenseMatrixOperations K) (s : PicardMatrixSolver D K)
    (hon : s.anderson_is_on = true)
    (hfull : s.num_last_vectors_used ≤ s.vec_in_memory + 1)
    (hret : (handle_previous_vectors ops dense s).thrown = none)
    (hbuf : s.previous_Anderson_sln_vector.length = s.problem_size) :
    (handle_previous_vectors ops dense s).state.sln_vector = s.sln_vector
    ∧ (handle_previous_vectors ops dense s).state.previous_Anderson_sln_vector
        = (List.range s.problem_size).map
            (spec_x_accelerated ops (handle_previous_vectors ops dense s).state.previous_vectors
              (handle_previous_vectors ops dense s).state.anderson_coeffs s.anderson_beta
              s.num_last_vectors_used) :=
  ⟨(handle_previous_vectors_full ops dense s hon hfull hret hbuf).1,
   (handle_previous_vectors_full ops dense s hon hfull hret hbuf).2.2.2⟩

/-- C5 (amended) at a concrete input: the solver `andersonSolver`. -/
theorem handle_previous_vectors_stores_accelerated_witness :
    (handle_previous_vectors ratOps (denseLU ratOps) andersonSolver).state.sln_vector = [3]
    ∧ (handle_previous_vectors ratOps (denseLU ratOps)
        andersonSolver).state.previous_Anderson_sln_vector
        = (List.range 1).map
            (spec_x_accelerated ratOps
              (handle_previous_vectors ratOps (denseLU ratOps) andersonSolver).state.previous_vectors
              (handle_previous_vectors ratOps (denseLU ratOps) andersonSolver).state.anderson_coeffs
              1 3) :=
  handle_previous_vectors_stores_accelerated ratOps (denseLU ratOps) andersonSolver
    rfl (by decide) (by decide!) rfl

/-- C6: with Anderson on, a memory `m` that is full once the new iterate is appended,
coefficients `coeff` (as `calculate_anderson_coeffs` returned them) and relaxation `beta`,
every component `k` of the vector `handle_previous_vectors` computes is the sum over
`j = 1 .. N - 1` of
`coeff[j-1] * m[j][k] - (1 - beta) * coeff[j-1] * (m[j][k] - m[j-1][k])`. -/
theorem accelerated_vector_formula (ops : ScalarOps D K) (dense : DenseMatrixOperations K)
    (s : PicardMatrixSolver D K) (hon : s.anderson_is_on = true)
    (hfull : s.num_last_vectors_used ≤ s.vec_in_memory + 1)
    (hret : (handle_previous_vectors ops dense s).thrown = none)
    (hbuf : s.previous_Anderson_sln_vector.length = s.problem_size) :
    (handle_previous_vectors ops dense s).state.previous_Anderson_sln_vector.length
        = s.problem_size
    ∧ ∀ k, k < s.problem_size →
      rd (handle_previous_vectors ops dense s).state.previous_Anderson_sln_vector k
        = ∑ j in Finset.Ico 1 s.num_last_vectors_used,
            (rd (handle_previous_vectors ops dense s).state.anderson_coeffs (j - 1)
                * rd (row (handle_previous_vectors ops dense s).state.previous_vectors j) k
              - ops.ofDouble (1 - s.anderson_beta)
                * rd (handle_previous_vectors ops dense s).state.anderson_coeffs (j - 1)
                * (rd (row (handle_previous_vectors ops dense s).state.previous_vectors j) k
                  - rd (row (handle_previous_vectors ops dense s).state.previous_vectors
                      (j - 1)) k)) := by
  have h := (handle_previous_vectors_full ops dense s hon hfull hret hbuf).2.2.2
  refine ⟨by rw [h]; simp, ?_⟩
  intro k hk
  rw [h]
  simp [rd, List.getD_eq_getElem?_getD, hk, spec_x_accelerated]

/-- C6 at a concrete input: the solver `andersonSolver` with relaxation `beta = 1/2`. -/
theorem accelerated_vector_formula_witness :
    rd (handle_previous_vectors ratOps (denseLU ratOps)
        { andersonSolver with anderson_beta := 1 / 2 }).state.previous_Anderson_sln_vector 0
      = ∑ j in Finset.Ico 1 3,
          (rd (handle_previous_vectors ratOps (denseLU ratOps)
                { andersonSolver with anderson_beta := 1 / 2 }).state.anderson_coeffs (j - 1)
              * rd (row (handle_previous_vectors ratOps (denseLU ratOps)
                { andersonSolver with anderson_beta := 1 / 2 }).state.previous_vectors j) 0
            - ratOps.ofDouble (1 - 1 / 2)
              * rd (handle_previous_vectors ratOps (denseLU ratOps)
                { andersonSolver with anderson_beta := 1 / 2 }).state.anderson_coeffs (j - 1)
              * (rd (row (handle_previous_vectors ratOps (denseLU ratOps)
                  { andersonSolver with anderson_beta := 1 / 2 }).state.previous_vectors j) 0
                - rd (row (handle_previous_vectors ratOps (denseLU ratOps)
                  { andersonSolver with anderson_beta := 1 / 2 }).state.previous_vectors
                    (j - 1)) 0)) :=
  (accelerated_vector_formula ratOps (denseLU ratOps)
    { andersonSolver with anderson_beta := 1 / 2 } rfl (by decide) (by decide!) rfl).2 0
    (by decide)

end AccelerationTheorems

theorem row_setEntry {α : Type} (a : List (List α)) (i j i2 : Nat) (v : α) :
    row (setEntry a i j v) i2 = if i = i2 ∧ i < a.length then (row a i).set j v else row a i2 := by
  simp only [setEntry, row_set]

/-- Invariant of the loop of `calculate_anderson_coeffs` that fills row `i` of `mat`, after
`m` passes. -/
theorem fill_row_inv {α : Type} [Zero α] (val : Nat → α) (a : List (List α)) (i m : Nat)
    (hi : i < a.length) :
    (forLoop m (fun j (mat : List (List α)) => setEntry mat i j (val j)) a).length = a.length
    ∧ (∀ i2, i2 ≠ i →
        row (forLoop m (fun j (mat : List (List α)) => setEntry mat i j (val j)) a) i2
          = row a i2)
    ∧ (row (forLoop m (fun j (mat : List (List α)) => setEntry mat i j (val j)) a) i).length
        = (row a i).length
    ∧ ∀ j, rd (row (forLoop m (fun j (mat : List (List α)) => setEntry mat i j (val j)) a) i) j
        = if j < m ∧ j < (row a i).length then val j else rd (row a i) j := by
  induction m with
  | zero => simp [forLoop_zero]
  | succ m ih =>
    obtain ⟨h1, h2, h3, h4⟩ := ih
    rw [forLoop_succ]
    generalize forLoop m _ a = b at h1 h2 h3 h4 ⊢
    have hib : i < b.length := by omega
    refine ⟨by simp [setEntry, h1], ?_, ?_, ?_⟩
    · intro i2 hne
      rw [row_setEntry, if_neg (by intro h; exact hne h.1.symm), h2 i2 hne]
    · rw [row_setEntry, if_pos ⟨rfl, hib⟩]; simp [h3]
    · intro j
      rw [row_setEntry, if_pos ⟨rfl, hib⟩, rd_set, h3, h4 j]
      by_cases hj : m = j
      · subst hj
        by_cases hl : m < (row a i).length
        · simp [hl]
        · simp [hl]
      · have : (j < m + 1) = (j < m) := by
          apply propext; constructor <;> intro h <;> omega
        simp [hj, this]

section SystemProofs
variable [Field K]

theorem anderson_val_eq (pv : List (List K)) (p n i j : Nat) :
    anderson_val pv p n i j
      = ∑ k in Finset.range p,
          (residual pv n k - residual pv i k) * (residual pv n k - residual pv j k) :=
  sum_loop (fun k => (residual pv n k - residual pv i k) * (residual pv n k - residual pv j k)) p

theorem anderson_rhs_loop_spec (pv : List (List K)) (p n i : Nat) (rhs : List K)
    (hi : i < rhs.length) :
    (anderson_rhs_loop pv p n i rhs).length = rhs.length
    ∧ rd (anderson_rhs_loop pv p n i rhs) i
        = ∑ k in Finset.range p, residual pv n k * (residual pv n k - residual pv i k)
    ∧ ∀ i2, i2 ≠ i → rd (anderson_rhs_loop pv p n i rhs) i2 = rd rhs i2 := by
  have h := accumulate_loop
    (fun k => residual pv n k * (residual pv n k - residual pv i k)) i 0 (rhs.set i 0)
    (by simp [hi]) p
  rw [forLoopFrom_zero] at h
  obtain ⟨h1, h2, h3⟩ := h
  refine ⟨?_, ?_, ?_⟩
  · simpa [anderson_rhs_loop] using h1
  · simp only [anderson_rhs_loop]
    rw [h2, rd_set_eq _ _ _ hi, zero_add, Finset.range_eq_Ico]
  · intro i2 hne
    simp only [anderson_rhs_loop]
    rw [h3 i2 hne, rd_set_ne _ _ _ _ (Ne.symm hne)]

end SystemProofs

section SystemInv
variable [Field K]

/-- Invariant of the outer set-up loop of `calculate_anderson_coeffs`, after `m` passes: the
first `m` entries of `rhs` and rows of `mat` hold the dot products. -/
theorem anderson_system_inv (pv : List (List K)) (p n m : Nat) (hm : m ≤ n) :
    (forLoop m (anderson_system_body pv p n)
        (List.replicate n (List.replicate n 0), List.replicate n 0)).1.length = n
    ∧ (∀ i, i < n →
        (row (forLoop m (anderson_system_body pv p n)
          (List.replicate n (List.replicate n 0), List.replicate n 0)).1 i).length = n)
    ∧ (forLoop m (anderson_system_body pv p n)
        (List.replicate n (List.replicate n 0), List.replicate n 0)).2.length = n
    ∧ (∀ i, i < m →
        rd (forLoop m (anderson_system_body pv p n)
          (List.replicate n (List.replicate n 0), List.replicate n 0)).2 i
          = ∑ k in Finset.range p, residual pv n k * (residual pv n k - residual pv i k))
    ∧ ∀ i j, i < m → j < n →
        rd (row (forLoop m (anderson_system_body pv p n)
          (List.replicate n (List.replicate n 0), List.replicate n 0)).1 i) j
          = ∑ k in Finset.range p,
              (residual pv n k - residual pv i k) * (residual pv n k - residual pv j k) := by
  induction m with
  | zero =>
    refine ⟨by simp [forLoop_zero], ?_, by simp [forLoop_zero], by simp, by simp⟩
    intro i hi
    simp [forLoop_zero, row, List.getD_eq_getElem?_getD, hi]
  | succ m ih =>
    obtain ⟨h1, h2, h3, h4, h5⟩ := ih (by omega)
    rw [forLoop_succ]
    generalize forLoop m (anderson_system_body pv p n) _ = st at h1 h2 h3 h4 h5 ⊢
    obtain ⟨r1, r2, r3⟩ := anderson_rhs_loop_spec pv p n m st.2 (by omega)
    obtain ⟨f1, f2, f3, f4⟩ := fill_row_inv (fun j => anderson_val pv p n m j) st.1 m n
      (by omega)
    simp only [anderson_system_body]
    refine ⟨by rw [f1, h1], ?_, by rw [r1, h3], ?_, ?_⟩
    · intro i hi
      by_cases him : i = m
      · subst him; rw [f3]; exact h2 i hi
      · rw [f2 i him]; exact h2 i hi
    · intro i hi
      by_cases him : i = m
      · subst him; exact r2
      · rw [r3 i him]; exact h4 i (by omega)
    · intro i j hi hj
      by_cases him : i = m
      · subst him
        rw [f4 j, if_pos ⟨hj, by rw [h2 i (by omega)]; exact hj⟩, anderson_val_eq]
      · rw [f2 i him]; exact h5 i j (by omega) hj

/-- The system `calculate_anderson_coeffs` sets up: sizes and entries of `mat` and `rhs`. -/
theorem anderson_system_spec (pv : List (List K)) (p n : Nat) :
    (anderson_system pv p n).1.length = n
    ∧ (∀ i, i < n → (row (anderson_system pv p n).1 i).length = n)
    ∧ (anderson_system pv p n).2.length = n
    ∧ (∀ i, i < n →
        rd (anderson_system pv p n).2 i
          = ∑ k in Finset.range p, residual pv n k * (residual pv n k - residual pv i k))
    ∧ ∀ i j, i < n → j < n →
        rd (row (anderson_system pv p n).1 i) j
          = ∑ k in Finset.range p,
              (residual pv n k - residual pv i k) * (residual pv n k - residual pv j k) :=
  anderson_system_inv pv p n n (le_refl n)

end SystemInv

section SystemTheorems
variable [Field K]

/-- C7: for `num_last_vectors_used >= 3`, `n = num_last_vectors_used - 2` and
`r_i[k] = memory[i+1][k] - memory[i][k]`, `calculate_anderson_coeffs` sets up
`b[i] = sum_k r_n[k] * (r_n[k] - r_i[k])` and
`M[i][j] = sum_k (r_n[k] - r_i[k]) * (r_n[k] - r_j[k])` for all `i, j < n` (sums over the
`problem_size` components), hands `M` and `b` to the dense LU routines and, when the
decomposition returns, leaves in the first `n` coefficients the vector `c` the back
substitution returned for them (so the coefficients solve `M c = b` whenever `c` does). -/
theorem calculate_anderson_coeffs_system (dense : DenseMatrixOperations K)
    (s : PicardMatrixSolver D K) (hN : 3 ≤ s.num_last_vectors_used)
    (hlen : s.anderson_coeffs.length = s.num_last_vectors_used - 1) :
    (∀ i k, residual s.previous_vectors i k
        = rd (row s.previous_vectors (i + 1)) k - rd (row s.previous_vectors i) k)
    ∧ (∀ i, i < s.num_last_vectors_used - 2 →
        rd (anderson_system s.previous_vectors s.problem_size (s.num_last_vectors_used - 2)).2 i
          = ∑ k in Finset.range s.problem_size,
              residual s.previous_vectors (s.num_last_vectors_used - 2) k
                * (residual s.previous_vectors (s.num_last_vectors_used - 2) k
                  - residual s.previous_vectors i k))
    ∧ (∀ i j, i < s.num_last_vectors_used - 2 → j < s.num_last_vectors_used - 2 →
        rd (row (anderson_system s.previous_vectors s.problem_size
              (s.num_last_vectors_used - 2)).1 i) j
          = ∑ k in Finset.range s.problem_size,
              (residual s.previous_vectors (s.num_last_vectors_used - 2) k
                  - residual s.previous_vectors i k)
                * (residual s.previous_vectors (s.num_last_vectors_used - 2) k
                  - residual s.previous_vectors j k))
    ∧ ∀ lu perm,
        dense.ludcmp
            (anderson_system s.previous_vectors s.problem_size
              (s.num_last_vectors_used - 2)).1 (s.num_last_vectors_used - 2)
          = Except.ok (lu, perm) →
        (calculate_anderson_coeffs dense s).thrown = none
        ∧ (∀ i, i < s.num_last_vectors_used - 2 →
            rd (calculate_anderson_coeffs dense s).state.anderson_coeffs i
              = rd (dense.lubksb lu (s.num_last_vectors_used - 2) perm
                  (anderson_system s.previous_vectors s.problem_size
                    (s.num_last_vectors_used - 2)).2) i)
        ∧ ((∀ i, i < s.num_last_vectors_used - 2 →
              ∑ j in Finset.range (s.num_last_vectors_used - 2),
                rd (row (anderson_system s.previous_vectors s.problem_size
                      (s.num_last_vectors_used - 2)).1 i) j
                  * rd (dense.lubksb lu (s.num_last_vectors_used - 2) perm
                      (anderson_system s.previous_vectors s.problem_size
                        (s.num_last_vectors_used - 2)).2) j
                = rd (anderson_system s.previous_vectors s.problem_size
                      (s.num_last_vectors_used - 2)).2 i) →
            ∀ i, i < s.num_last_vectors_used - 2 →
              ∑ j in Finset.range (s.num_last_vectors_used - 2),
                rd (row (anderson_system s.previous_vectors s.problem_size
                      (s.num_last_vectors_used - 2)).1 i) j
                  * rd (calculate_anderson_coeffs dense s).state.anderson_coeffs j
                = rd (anderson_system s.previous_vectors s.problem_size
                      (s.num_last_vectors_used - 2)).2 i) := by
  obtain ⟨_, _, _, hb, hM⟩ := anderson_system_spec s.previous_vectors s.problem_size
    (s.num_last_vectors_used - 2)
  refine ⟨fun _ _ => rfl, hb, hM, ?_⟩
  intro lu perm hlu
  have h2 : s.num_last_vectors_used ≠ 2 := by omega
  obtain ⟨_, c2, _⟩ := store_anderson_coeffs_spec
    (dense.lubksb lu (s.num_last_vectors_used - 2) perm
      (anderson_system s.previous_vectors s.problem_size (s.num_last_vectors_used - 2)).2)
    s.anderson_coeffs (s.num_last_vectors_used - 2) (by omega)
  have hcoef : ∀ i, i < s.num_last_vectors_used - 2 →
      rd (calculate_anderson_coeffs dense s).state.anderson_coeffs i
        = rd (dense.lubksb lu (s.num_last_vectors_used - 2) perm
            (anderson_system s.previous_vectors s.problem_size
              (s.num_last_vectors_used - 2)).2) i := by
    intro i hi
    simp only [calculate_anderson_coeffs, h2, if_false, hlu]
    exact c2 i hi
  refine ⟨by simp only [calculate_anderson_coeffs, h2, if_false, hlu], hcoef, ?_⟩
  intro hsol i hi
  rw [← hsol i hi]
  exact Finset.sum_congr rfl (fun j hj => by rw [hcoef j (Finset.mem_range.mp hj)])

/-- C7 at a concrete input: depth 4, memory `[0, 1], [1, 3], [3, 4], [5, 9]`, entry
`M[0][1]`. -/
theorem calculate_anderson_coeffs_system_witness :
    rd (row (anderson_system [[(0 : ℚ), 1], [1, 3], [3, 4], [5, 9]] 2 (4 - 2)).1 0) 1
      = ∑ k in Finset.range 2,
          (residual [[(0 : ℚ), 1], [1, 3], [3, 4], [5, 9]] (4 - 2) k
              - residual [[(0 : ℚ), 1], [1, 3], [3, 4], [5, 9]] 0 k)
            * (residual [[(0 : ℚ), 1], [1, 3], [3, 4], [5, 9]] (4 - 2) k
              - residual [[(0 : ℚ), 1], [1, 3], [3, 4], [5, 9]] 1 k) :=
  (calculate_anderson_coeffs_system (denseLU ratOps)
    { ratSolver with problem_size := 2, num_last_vectors_used := 4,
                     previous_vectors := [[0, 1], [1, 3], [3, 4], [5, 9]],
                     anderson_coeffs := [0, 0, 0] }
    (by decide) rfl).2.2.1 0 1 (by decide) (by decide)

end SystemTheorems

section SwapProofs
variable [Field K]

/-- Every entry of an interchanged all-zero matrix is zero. -/
theorem swap_rows_zero (a : List (List K)) (i j : Nat)
    (hz : ∀ r c, rd (row a r) c = 0) : ∀ r c, rd (row (swap_rows a i j) r) c = 0 := by
  intro r c
  simp only [swap_rows, row_set]
  split
  · exact hz _ _
  · split
    · exact hz _ _
    · exact hz _ _

/-- When every difference `r_i`, `i < n`, equals `r_n`, the matrix set up by
`calculate_anderson_coeffs` is zero. -/
theorem anderson_system_zero (pv : List (List K)) (p n : Nat)
    (hr : ∀ i k, i < n → k < p → residual pv i k = residual pv n k) :
    ∀ r c, rd (row (anderson_system pv p n).1 r) c = 0 := by
  obtain ⟨h1, h2, _, _, h5⟩ := anderson_system_spec pv p n
  intro r c
  by_cases hrn : r < n
  · by_cases hcn : c < n
    · rw [h5 r c hrn hcn]
      apply Finset.sum_eq_zero
      intro k hk
      rw [hr r k hrn (Finset.mem_range.mp hk)]
      simp
    · have hl := h2 r hrn
      simp [rd, List.getD_eq_getElem?_getD,
        List.getElem?_eq_none (by omega : (row (anderson_system pv p n).1 r).length ≤ c)]
  · have : row (anderson_system pv p n).1 r = [] := by
      simp [row, List.getD_eq_getElem?_getD,
        List.getElem?_eq_none (by omega : (anderson_system pv p n).1.length ≤ r)]
    simp [this, rd]

/-- When the decomposition throws, `calculate_anderson_coeffs` leaves with that exception and
no data member changed. -/
theorem calculate_anderson_coeffs_throws (dense : DenseMatrixOperations K)
    (s : PicardMatrixSolver D K) (hN : s.num_last_vectors_used ≠ 2) (e : Exception)
    (hlu : dense.ludcmp
        (anderson_system s.previous_vectors s.problem_size (s.num_last_vectors_used - 2)).1
        (s.num_last_vectors_used - 2) = Except.error e) :
    (calculate_anderson_coeffs dense s).thrown = some e
    ∧ (calculate_anderson_coeffs dense s).state = s := by
  simp only [calculate_anderson_coeffs, hN, if_false, hlu, and_self]

end SwapProofs

section SingularProofs
variable [LinearOrderedField D] [Field K] [DecidableEq K]

/-- The decomposition of an all-zero matrix of order at least one throws. -/
theorem ludcmp_zero (ops : ScalarOps D K) (a : List (List K)) (n : Nat) (hn : 1 ≤ n)
    (hz : ∀ r c, rd (row a r) c = 0) :
    ludcmp ops a n = Except.error Exception.SingularSystem := by
  obtain ⟨m, rfl⟩ : ∃ m, n = m + 1 := ⟨n - 1, by omega⟩
  have hstep : ludcmp_step ops (m + 1) 0 (a, List.replicate (m + 1) 0)
      = Except.error Exception.SingularSystem := by
    simp only [ludcmp_step]
    rw [if_pos (swap_rows_zero a 0 _ hz 0 0)]
  simp only [ludcmp, List.range_succ_eq_map, List.foldlM_cons, hstep]
  rfl

end SingularProofs

section PivotProofs
variable [LinearOrderedField D] [Field K]

/-- The pivot search returns a row at or below the diagonal. -/
theorem pivot_row_bounds (ops : ScalarOps D K) (a : List (List K)) (n j : Nat) (hj : j < n) :
    j ≤ pivot_row ops a n j ∧ pivot_row ops a n j < n := by
  have h : ∀ m, j ≤ forLoopFrom (j + 1) m
        (fun i imax =>
          if ops.abs (rd (row a imax) j) < ops.abs (rd (row a i) j) then i else imax) j
      ∧ forLoopFrom (j + 1) m
        (fun i imax =>
          if ops.abs (rd (row a imax) j) < ops.abs (rd (row a i) j) then i else imax) j
        < max (j + 1) m := by
    intro m
    induction m with
    | zero => simp [forLoopFrom_of_le]
    | succ m ih =>
      by_cases hm : j + 1 ≤ m
      · rw [forLoopFrom_succ _ _ hm]
        obtain ⟨h1, h2⟩ := ih
        split
        · refine ⟨by omega, ?_⟩
          simp
        · refine ⟨h1, lt_of_lt_of_le h2 ?_⟩
          apply max_le_max (le_refl _) (by omega)
      · rw [forLoopFrom_of_le _ _ (by omega)]
        simp
  obtain ⟨h1, h2⟩ := h n
  refine ⟨h1, ?_⟩
  have : max (j + 1) n = n := max_eq_right (by omega)
  simpa [pivot_row, this] using h2

end PivotProofs

theorem row_swap_rows (a : List (List K)) (i j r : Nat) (hi : i < a.length)
    (hj : j < a.length) :
    row (swap_rows a i j) r
      = if r = j then row a i else if r = i then row a j else row a r := by
  simp only [swap_rows, row_set, List.length_set]
  by_cases h1 : r = j
  · subst h1; simp [hj]
  · by_cases h2 : r = i
    · subst h2; simp [h1, hi, Ne.symm h1]
    · simp [h1, h2, Ne.symm h1, Ne.symm h2]

theorem length_swap_rows (a : List (List K)) (i j : Nat) :
    (swap_rows a i j).length = a.length := by
  simp [swap_rows]

section SwapMatrix
variable [Field K]

/-- Interchanging two rows at or below row `j` interchanges the rows of the reduced matrix. -/
theorem reduced_swap_rows (a : List (List K)) (n j p : Nat) (hlen : a.length = n)
    (hj : j < n) (hjp : j ≤ p) (hp : p < n) :
    reduced (swap_rows a j p) n j
      = (reduced a n j).submatrix (Equiv.swap (⟨j, hj⟩ : Fin n) ⟨p, hp⟩) id := by
  ext i c
  simp only [reduced, Matrix.of_apply, Matrix.submatrix_apply, id]
  rw [row_swap_rows a j p i.val (by omega) (by omega)]
  by_cases h1 : i = ⟨p, hp⟩
  · subst h1
    simp only [Equiv.swap_apply_right, if_true]
    by_cases hc : c.val < j
    · have : c.val < p := by omega
      simp [hc, this]
    · simp [hc]
  · have h1v : i.val ≠ p := fun h => h1 (Fin.ext h)
    by_cases h2 : i = ⟨j, hj⟩
    · subst h2
      simp only [Equiv.swap_apply_left, h1v, if_false, if_true]
      by_cases hc : c.val < j
      · have : c.val < p := by omega
        simp [hc, this]
      · simp [hc]
    · have h2v : i.val ≠ j := fun h => h2 (Fin.ext h)
      rw [Equiv.swap_apply_of_ne_of_ne h2 h1]
      simp [h1v, h2v]

theorem det_reduced_swap_rows (a : List (List K)) (n j p : Nat) (hlen : a.length = n)
    (hj : j < n) (hjp : j ≤ p) (hp : p < n)
    (hdet : (reduced (swap_rows a j p) n j).det ≠ 0) : (reduced a n j).det ≠ 0 := by
  rw [reduced_swap_rows a n j p hlen hj hjp hp, Matrix.det_permute] at hdet
  exact right_ne_zero_of_mul hdet

end SwapMatrix

theorem length_setEntry {α : Type} (a : List (List α)) (i j : Nat) (v : α) :
    (setEntry a i j v).length = a.length := by
  simp [setEntry]

section EliminateProofs
variable [Field K]

/-- Invariant of the inner loop of `eliminate` on row `i`: the entries of row `i` in the
columns `lo .. h - 1` have the multiple `f` of row `j` subtracted. -/
theorem eliminate_row_loop (a : List (List K)) (i j : Nat) (f : K) (lo : Nat) (hij : i ≠ j)
    (hil : i < a.length) (h : Nat) :
    (forLoopFrom lo h
        (fun k (a : List (List K)) => setEntry a i k (rd (row a i) k - f * rd (row a j) k))
        a).length = a.length
    ∧ (∀ r, r ≠ i →
        row (forLoopFrom lo h
          (fun k (a : List (List K)) => setEntry a i k (rd (row a i) k - f * rd (row a j) k))
          a) r = row a r)
    ∧ (row (forLoopFrom lo h
          (fun k (a : List (List K)) => setEntry a i k (rd (row a i) k - f * rd (row a j) k))
          a) i).length = (row a i).length
    ∧ ∀ c, rd (row (forLoopFrom lo h
          (fun k (a : List (List K)) => setEntry a i k (rd (row a i) k - f * rd (row a j) k))
          a) i) c
        = if lo ≤ c ∧ c < h ∧ c < (row a i).length then rd (row a i) c - f * rd (row a j) c
          else rd (row a i) c := by
  induction h with
  | zero => simp [forLoopFrom_of_le]
  | succ m ih =>
    by_cases hm : lo ≤ m
    · obtain ⟨h1, h2, h3, h4⟩ := ih
      rw [forLoopFrom_succ _ _ hm]
      generalize forLoopFrom lo m _ a = b at h1 h2 h3 h4 ⊢
      have hib : i < b.length := by omega
      refine ⟨by rw [length_setEntry, h1], ?_, ?_, ?_⟩
      · intro r hr
        rw [row_setEntry, if_neg (fun hh => hr hh.1.symm), h2 r hr]
      · rw [row_setEntry, if_pos ⟨rfl, hib⟩, List.length_set, h3]
      · intro c
        rw [row_setEntry, if_pos ⟨rfl, hib⟩, rd_set, h3, h4 c, h4 m, h2 j (Ne.symm hij)]
        by_cases hc : m = c
        · subst hc
          by_cases hl : m < (row a i).length
          · simp [hl, hm]
          · simp [hl]
        · have e : (c < m + 1) = (c < m) := by
            apply propext; constructor <;> intro hh <;> omega
          simp [hc, e]
    · rw [forLoopFrom_of_le _ _ (by omega : m + 1 ≤ lo)]
      refine ⟨rfl, fun _ _ => rfl, rfl, ?_⟩
      intro c
      rw [if_neg (by omega)]

end EliminateProofs

section EliminateRowProofs
variable [Field K]

/-- What `eliminate_row` leaves: only row `i` changes, in column `j` and the columns after. -/
theorem eliminate_row_spec (a : List (List K)) (n j i : Nat) (hij : i ≠ j)
    (hil : i < a.length) :
    (eliminate_row n j i a).length = a.length
    ∧ (∀ r, r ≠ i → row (eliminate_row n j i a) r = row a r)
    ∧ (row (eliminate_row n j i a) i).length = (row a i).length
    ∧ ∀ c, rd (row (eliminate_row n j i a) i) c
        = if c = j ∧ j < (row a i).length then rd (row a i) j / rd (row a j) j
          else if j + 1 ≤ c ∧ c < n ∧ c < (row a i).length then
            rd (row a i) c - rd (row a i) j / rd (row a j) j * rd (row a j) c
          else rd (row a i) c := by
  obtain ⟨h1, h2, h3, h4⟩ := eliminate_row_loop
    (setEntry a i j (rd (row a i) j / rd (row a j) j)) i j
    (rd (row a i) j / rd (row a j) j) (j + 1) hij (by rw [length_setEntry]; exact hil) n
  have hrow : row (setEntry a i j (rd (row a i) j / rd (row a j) j)) i
      = (row a i).set j (rd (row a i) j / rd (row a j) j) := by
    rw [row_setEntry, if_pos ⟨rfl, hil⟩]
  have hrowj : row (setEntry a i j (rd (row a i) j / rd (row a j) j)) j = row a j := by
    rw [row_setEntry, if_neg (fun hh => hij hh.1)]
  simp only [eliminate_row]
  refine ⟨by rw [h1, length_setEntry], ?_, by rw [h3, hrow, List.length_set], ?_⟩
  · intro r hr
    rw [h2 r hr, row_setEntry, if_neg (fun hh => hr hh.1.symm)]
  · intro c
    rw [h4 c, hrow, hrowj, List.length_set, rd_set]
    by_cases hc : c = j
    · subst hc
      by_cases hl : c < (row a i).length
      · simp [hl]
      · simp [hl]
    · by_cases hc2 : j + 1 ≤ c ∧ c < n ∧ c < (row a i).length
      · simp [hc, Ne.symm hc, hc2]
      · simp [hc, Ne.symm hc, hc2]

/-- Invariant of the loop of `eliminate` over the rows below the pivot row `j`, up to
row `m`. -/
theorem eliminate_loop_inv (a : List (List K)) (n j m : Nat) :
    (forLoopFrom (j + 1) m (eliminate_row n j) a).length = a.length
    ∧ (∀ r, (row (forLoopFrom (j + 1) m (eliminate_row n j) a) r).length = (row a r).length)
    ∧ ∀ r c, rd (row (forLoopFrom (j + 1) m (eliminate_row n j) a) r) c
        = if j < r ∧ r < m ∧ r < a.length then
            (if c = j ∧ j < (row a r).length then rd (row a r) j / rd (row a j) j
             else if j + 1 ≤ c ∧ c < n ∧ c < (row a r).length then
               rd (row a r) c - rd (row a r) j / rd (row a j) j * rd (row a j) c
             else rd (row a r) c)
          else rd (row a r) c := by
  induction m with
  | zero => simp [forLoopFrom_of_le]
  | succ m ih =>
    by_cases hm : j + 1 ≤ m
    · obtain ⟨h1, h2, h3⟩ := ih
      rw [forLoopFrom_succ _ _ hm]
      generalize forLoopFrom (j + 1) m (eliminate_row n j) a = b at h1 h2 h3 ⊢
      by_cases hml : m < a.length
      · obtain ⟨e1, e2, e3, e4⟩ := eliminate_row_spec b n j m (by omega) (by omega)
        refine ⟨by rw [e1, h1], ?_, ?_⟩
        · intro r
          by_cases hr : r = m
          · subst hr; rw [e3, h2]
          · rw [e2 r hr, h2]
        · intro r c
          by_cases hr : r = m
          · subst hr
            have n1 : ¬ (j < r ∧ r < r ∧ r < a.length) := by omega
            have n2 : ¬ (j < j ∧ j < r ∧ j < a.length) := by omega
            have p1 : j < r ∧ r < r + 1 ∧ r < a.length := by omega
            have q1 : ∀ c2, rd (row b r) c2 = rd (row a r) c2 := by
              intro c2; rw [h3 r c2, if_neg n1]
            have q2 : ∀ c2, rd (row b j) c2 = rd (row a j) c2 := by
              intro c2; rw [h3 j c2, if_neg n2]
            rw [e4 c, h2, q1 j, q2 j, q1 c, q2 c, if_pos p1]
          · rw [e2 r hr, h3 r c]
            have e : (r < m + 1) = (r < m) := by
              apply propext; constructor <;> intro hh <;> omega
            simp only [e]
      · have hb : eliminate_row n j m b = b := by
          have hr : row b m = [] := by
            simp [row, List.getD_eq_getElem?_getD,
              List.getElem?_eq_none (by omega : b.length ≤ m)]
          have hs : ∀ (k : Nat) (v : K) (x : List (List K)), x.length = b.length →
              setEntry x m k v = x := by
            intro k v x hx
            simp only [setEntry]
            exact List.set_eq_of_length_le (by omega)
          have hloop : ∀ (f : K) (h : Nat) (x : List (List K)), x.length = b.length →
              forLoopFrom (j + 1) h
                (fun k (a : List (List K)) =>
                  setEntry a m k (rd (row a m) k - f * rd (row a j) k)) x = x := by
            intro f h
            induction h with
            | zero => intro x _; simp [forLoopFrom_of_le]
            | succ q ihq =>
              intro x hx
              by_cases hq : j + 1 ≤ q
              · rw [forLoopFrom_succ _ _ hq, ihq x hx, hs _ _ x hx]
              · rw [forLoopFrom_of_le _ _ (by omega)]
          simp only [eliminate_row]
          rw [hs _ _ b rfl, hloop _ _ b rfl]
        rw [hb]
        refine ⟨h1, h2, ?_⟩
        intro r c
        rw [h3 r c]
        have e : (j < r ∧ r < m + 1 ∧ r < a.length) = (j < r ∧ r < m ∧ r < a.length) := by
          apply propext; constructor <;> intro hh <;> omega
        simp only [e]
    · rw [forLoopFrom_of_le _ _ (by omega : m + 1 ≤ j + 1)]
      refine ⟨rfl, fun _ => rfl, ?_⟩
      intro r c
      rw [if_neg (by omega)]

end EliminateRowProofs

section EliminateDet
variable [Field K]

/-- Entries of `eliminate a n j` for a square array with a nonzero pivot. -/
theorem eliminate_entries (a : List (List K)) (n j : Nat) (hlen : a.length = n)
    (hrows : ∀ r, r < n → (row a r).length = n) (hj : j < n) :
    (eliminate a n j).length = n
    ∧ (∀ r, r < n → (row (eliminate a n j) r).length = n)
    ∧ (∀ r c, r ≤ j → rd (row (eliminate a n j) r) c = rd (row a r) c)
    ∧ ∀ r c, j < r → r < n → c < n →
        rd (row (eliminate a n j) r) c
          = if c = j then rd (row a r) j / rd (row a j) j
            else if j < c then rd (row a r) c - rd (row a r) j / rd (row a j) j * rd (row a j) c
            else rd (row a r) c := by
  obtain ⟨h1, h2, h3⟩ := eliminate_loop_inv a n j n
  simp only [eliminate]
  refine ⟨by rw [h1, hlen], fun r hr => by rw [h2 r, hrows r hr], ?_, ?_⟩
  · intro r c hr
    rw [h3 r c, if_neg (by omega)]
  · intro r c hjr hr hc
    rw [h3 r c, if_pos ⟨hjr, hr, by omega⟩, hrows r hr]
    by_cases hcj : c = j
    · rw [if_pos ⟨hcj, hj⟩, if_pos hcj]
    · rw [if_neg (fun hh => hcj hh.1), if_neg hcj]
      by_cases hjc : j < c
      · rw [if_pos ⟨hjc, hc, hc⟩, if_pos hjc]
      · rw [if_neg (fun hh => hjc hh.1), if_neg hjc]

/-- Elimination in column `j` with a nonzero pivot keeps the determinant of the reduced
matrix. -/
theorem det_reduced_eliminate (a : List (List K)) (n j : Nat) (hlen : a.length = n)
    (hrows : ∀ r, r < n → (row a r).length = n) (hj : j < n)
    (hpiv : rd (row a j) j ≠ 0) :
    (reduced (eliminate a n j) n (j + 1)).det = (reduced a n j).det := by
  obtain ⟨_, _, e3, e4⟩ := eliminate_entries a n j hlen hrows hj
  apply Matrix.det_eq_of_forall_row_eq_smul_add_const
    (fun i : Fin n => if j < i.val then -(rd (row a i.val) j / rd (row a j) j) else 0)
    (⟨j, hj⟩ : Fin n) (by simp)
  intro i c
  simp only [reduced, Matrix.of_apply]
  by_cases hji : j < i.val
  · rw [e4 i.val c.val hji i.isLt c.isLt]
    simp only [hji, if_true]
    by_cases hcj : c.val = j
    · have p1 : c.val < j + 1 ∧ c.val < i.val := by omega
      have n1 : ¬ (c.val < j ∧ c.val < i.val) := by omega
      have n2 : ¬ (c.val < j ∧ c.val < j) := by omega
      rw [if_pos p1, if_neg n1, if_neg n2, hcj]
      field_simp
    · by_cases hjc : j < c.val
      · have n0 : ¬ (c.val < j + 1 ∧ c.val < i.val) := by omega
        have n1 : ¬ (c.val < j ∧ c.val < i.val) := by omega
        have n2 : ¬ (c.val < j ∧ c.val < j) := by omega
        rw [if_neg n0, if_neg n1, if_neg n2, if_neg hcj, if_pos hjc]
        ring
      · have p0 : c.val < j + 1 ∧ c.val < i.val := by omega
        have p1 : c.val < j ∧ c.val < i.val := by omega
        have p2 : c.val < j ∧ c.val < j := by omega
        rw [if_pos p0, if_pos p1, if_pos p2]
        ring
  · rw [e3 i.val c.val (by omega)]
    simp only [hji, if_false, zero_mul, add_zero]
    by_cases hci : c.val < i.val
    · have p0 : c.val < j + 1 ∧ c.val < i.val := by omega
      have p1 : c.val < j ∧ c.val < i.val := by omega
      rw [if_pos p0, if_pos p1]
    · have n0 : ¬ (c.val < j + 1 ∧ c.val < i.val) := by omega
      have n1 : ¬ (c.val < j ∧ c.val < i.val) := by omega
      rw [if_neg n0, if_neg n1]

end EliminateDet

section DecompositionProofs
variable [LinearOrderedField D] [Field K] [DecidableEq K]

/-- One column of the decomposition that does not throw keeps the array square, leaves
nonzero pivots on the diagonal up to that column and keeps the determinant of the reduced
matrix up to its sign. -/
theorem ludcmp_step_ok (ops : ScalarOps D K) (n j : Nat) (a a2 : List (List K))
    (idx idx2 : List Nat) (hj : j < n) (hlen : a.length = n)
    (hrows : ∀ r, r < n → (row a r).length = n)
    (hdiag : ∀ c, c < j → rd (row a c) c ≠ 0)
    (hok : ludcmp_step ops n j (a, idx) = Except.ok (a2, idx2)) :
    a2.length = n
    ∧ (∀ r, r < n → (row a2 r).length = n)
    ∧ (∀ c, c < j + 1 → rd (row a2 c) c ≠ 0)
    ∧ ((reduced a2 n (j + 1)).det ≠ 0 → (reduced a n j).det ≠ 0) := by
  obtain ⟨hp1, hp2⟩ := pivot_row_bounds ops a n j hj
  have hsl : (swap_rows a j (pivot_row ops a n j)).length = n := by
    rw [length_swap_rows, hlen]
  have hsr : ∀ r, row (swap_rows a j (pivot_row ops a n j)) r
      = if r = pivot_row ops a n j then row a j
        else if r = j then row a (pivot_row ops a n j) else row a r :=
    fun r => row_swap_rows a j _ r (by omega) (by omega)
  have hsrows : ∀ r, r < n → (row (swap_rows a j (pivot_row ops a n j)) r).length = n := by
    intro r hr
    rw [hsr r]
    split
    · exact hrows j hj
    · split
      · exact hrows _ hp2
      · exact hrows r hr
  simp only [ludcmp_step] at hok
  split at hok
  · cases hok
  · rename_i hpiv
    injection hok with hok
    injection hok with hok1 _
    subst hok1
    obtain ⟨e1, e2, e3, _⟩ := eliminate_entries _ n j hsl hsrows hj
    refine ⟨e1, e2, ?_, ?_⟩
    · intro c hc
      rw [e3 c c (by omega)]
      by_cases hcj : c = j
      · subst hcj; exact hpiv
      · rw [hsr c, if_neg (by omega), if_neg hcj]
        exact hdiag c (by omega)
    · intro hdet
      rw [det_reduced_eliminate _ n j hsl hsrows hj hpiv] at hdet
      exact det_reduced_swap_rows a n j _ hlen hj hp1 hp2 hdet

/-- Invariant of the decomposition after `m` columns that did not throw. -/
theorem ludcmp_prefix_ok (ops : ScalarOps D K) (n : Nat) (a : List (List K))
    (hlen : a.length = n) (hrows : ∀ r, r < n → (row a r).length = n) (m : Nat) (hm : m ≤ n) :
    ∀ st, (List.range m).foldlM (fun st j => ludcmp_step ops n j st)
        (a, List.replicate n 0) = Except.ok st →
      st.1.length = n
      ∧ (∀ r, r < n → (row st.1 r).length = n)
      ∧ (∀ c, c < m → rd (row st.1 c) c ≠ 0)
      ∧ ((reduced st.1 n m).det ≠ 0 → (reduced a n 0).det ≠ 0) := by
  induction m with
  | zero =>
    intro st hst
    simp only [List.range_zero, List.foldlM_nil] at hst
    cases hst
    exact ⟨hlen, hrows, fun c hc => absurd hc (Nat.not_lt_zero c), fun h => h⟩
  | succ m ih =>
    intro st hst
    rw [List.range_succ, List.foldlM_append] at hst
    cases hpre : (List.range m).foldlM (fun st j => ludcmp_step ops n j st)
        (a, List.replicate n 0) with
    | error e =>
      rw [hpre] at hst
      cases hst
    | ok st1 =>
      rw [hpre] at hst
      obtain ⟨i1, i2, i3, i4⟩ := ih (by omega) st1 hpre
      have hstep : ludcmp_step ops n m (st1.1, st1.2) = Except.ok (st.1, st.2) := by
        simpa [List.foldlM_cons, List.foldlM_nil] using hst
      obtain ⟨s1, s2, s3, s4⟩ :=
        ludcmp_step_ok ops n m st1.1 st.1 st1.2 st.2 (by omega) i1 i2 i3 hstep
      exact ⟨s1, s2, s3, fun h => i4 (s4 h)⟩

/-- A decomposition that returns was given a matrix with a nonzero determinant. -/
theorem ludcmp_ok_det_ne_zero (ops : ScalarOps D K) (n : Nat) (a : List (List K))
    (hlen : a.length = n) (hrows : ∀ r, r < n → (row a r).length = n)
    (st : List (List K) × List Nat) (hok : ludcmp ops a n = Except.ok st) :
    (toMatrix a n).det ≠ 0 := by
  obtain ⟨_, _, h3, h4⟩ := ludcmp_prefix_ok ops n a hlen hrows n (le_refl n) st hok
  have h0 : reduced a n 0 = toMatrix a n := by
    ext i c
    simp [reduced, toMatrix]
  rw [← h0]
  apply h4
  have htri : (reduced st.1 n n).BlockTriangular id := by
    intro i c hic
    have hlt : c.val < i.val := hic
    simp only [reduced, Matrix.of_apply]
    rw [if_pos ⟨c.isLt, hlt⟩]
  rw [Matrix.det_of_upperTriangular htri]
  apply Finset.prod_ne_zero_iff.mpr
  intro i _
  simp only [reduced, Matrix.of_apply, lt_self_iff_false, and_false, if_false]
  exact h3 i.val i.isLt

/-- The decomposition of a square array with determinant zero throws `SingularSystem`. -/
theorem ludcmp_singular (ops : ScalarOps D K) (n : Nat) (a : List (List K))
    (hlen : a.length = n) (hrows : ∀ r, r < n → (row a r).length = n)
    (hdet : (toMatrix a n).det = 0) :
    ludcmp ops a n = Except.error Exception.SingularSystem := by
  cases h : ludcmp ops a n with
  | error e => cases e; rfl
  | ok st => exact absurd hdet (ludcmp_ok_det_ne_zero ops n a hlen hrows st h)

end DecompositionProofs

section SingularTheorems
variable [LinearOrderedField D] [Field K] [DecidableEq K]

/-- C8: for `num_last_vectors_used >= 3`, when the LU decomposition of the Anderson matrix
meets a zero pivot after the row interchange (it throws `SingularSystem`),
`calculate_anderson_coeffs` leaves with `SingularSystem` and writes no coefficient; with
the dense LU solve of the specification this happens whenever the determinant of the
Anderson matrix is zero, in particular for `num_last_vectors_used = 3` with
`memory[2] - memory[1] = memory[1] - memory[0]`, and for any depth when all memory vectors
are identical. -/
theorem calculate_anderson_coeffs_singular (ops : ScalarOps D K)
    (dense : DenseMatrixOperations K) (s : PicardMatrixSolver D K)
    (hN : 3 ≤ s.num_last_vectors_used) :
    (dense.ludcmp
        (anderson_system s.previous_vectors s.problem_size (s.num_last_vectors_used - 2)).1
        (s.num_last_vectors_used - 2) = Except.error Exception.SingularSystem →
      (calculate_anderson_coeffs dense s).thrown = some Exception.SingularSystem
      ∧ (calculate_anderson_coeffs dense s).state = s)
    ∧ ((toMatrix
          (anderson_system s.previous_vectors s.problem_size (s.num_last_vectors_used - 2)).1
          (s.num_last_vectors_used - 2)).det = 0 →
        (calculate_anderson_coeffs (denseLU ops) s).thrown = some Exception.SingularSystem
        ∧ (calculate_anderson_coeffs (denseLU ops) s).state = s)
    ∧ (s.num_last_vectors_used = 3 →
        (∀ k, k < s.problem_size →
          rd (row s.previous_vectors 2) k - rd (row s.previous_vectors 1) k
            = rd (row s.previous_vectors 1) k - rd (row s.previous_vectors 0) k) →
        (calculate_anderson_coeffs (denseLU ops) s).thrown = some Exception.SingularSystem
        ∧ (calculate_anderson_coeffs (denseLU ops) s).state = s)
    ∧ ((∀ i k, i < s.num_last_vectors_used → k < s.problem_size →
          rd (row s.previous_vectors i) k = rd (row s.previous_vectors 0) k) →
        (calculate_anderson_coeffs (denseLU ops) s).thrown = some Exception.SingularSystem
        ∧ (calculate_anderson_coeffs (denseLU ops) s).state = s) := by
  have hne : s.num_last_vectors_used ≠ 2 := by omega
  have key : (∀ i k, i < s.num_last_vectors_used - 2 → k < s.problem_size →
        residual s.previous_vectors i k
          = residual s.previous_vectors (s.num_last_vectors_used - 2) k) →
      (calculate_anderson_coeffs (denseLU ops) s).thrown = some Exception.SingularSystem
      ∧ (calculate_anderson_coeffs (denseLU ops) s).state = s := by
    intro hr
    apply calculate_anderson_coeffs_throws (denseLU ops) s hne
    exact ludcmp_zero ops _ _ (by omega)
      (anderson_system_zero s.previous_vectors s.problem_size _ hr)
  refine ⟨fun hlu => calculate_anderson_coeffs_throws dense s hne _ hlu, ?_, ?_, ?_⟩
  · intro hdet
    obtain ⟨h1, h2, _⟩ := anderson_system_spec s.previous_vectors s.problem_size
      (s.num_last_vectors_used - 2)
    exact calculate_anderson_coeffs_throws (denseLU ops) s hne _
      (ludcmp_singular ops _ _ h1 h2 hdet)
  · intro h3 hdiff
    apply key
    intro i k hi hk
    have hi0 : i = 0 := by omega
    subst hi0
    rw [h3]
    simp only [residual]
    exact (hdiff k hk).symm
  · intro hsame
    apply key
    intro i k hi hk
    simp only [residual]
    rw [hsame (i + 1) k (by omega) hk, hsame i k (by omega) hk,
      hsame (s.num_last_vectors_used - 2 + 1) k (by omega) hk,
      hsame (s.num_last_vectors_used - 2) k (by omega) hk]

/-- C8 at a concrete input: depth 3, memory `[0], [1], [2]` (equal successive differences). -/
theorem calculate_anderson_coeffs_singular_witness :
    (calculate_anderson_coeffs (denseLU ratOps)
        { ratSolver with problem_size := 1, previous_vectors := [[0], [1], [2]],
                         anderson_coeffs := [5, 6] }).thrown = some Exception.SingularSystem
    ∧ (calculate_anderson_coeffs (denseLU ratOps)
        { ratSolver with problem_size := 1, previous_vectors := [[0], [1], [2]],
                         anderson_coeffs := [5, 6] }).state.anderson_coeffs = [5, 6] :=
  have h := (calculate_anderson_coeffs_singular ratOps (denseLU ratOps)
    { ratSolver with problem_size := 1, previous_vectors := [[0], [1], [2]],
                     anderson_coeffs := [5, 6] } (by decide)).2.2.1 rfl (by decide!)
  ⟨h.1, by rw [h.2]⟩

end SingularTheorems

section FirstStepTheorems
variable [LinearOrderedField D]

/-- C11: with the overloaded flag on and exactly one recorded solution-change norm,
`damping_factor_condition` returns true, whatever that norm, the value of
`sufficient_improvement_factor` and the predicate of the base class are. -/
theorem damping_factor_condition_first_step (base : PicardMatrixSolver D K → Bool)
    (s : PicardMatrixSolver D K) (norm : D)
    (hflag : s.damping_factor_condition_overloaded = true)
    (hone : s.solution_change_norms = [norm]) :
    damping_factor_condition base s = true
    ∧ ∀ factor : D,
        damping_factor_condition base { s with sufficient_improvement_factor := factor }
          = true := by
  constructor
  · simp [damping_factor_condition, hflag, hone]
  · intro factor
    simp [damping_factor_condition, hflag, hone]

/-- C11 at a concrete input: a single norm 7, factor 0 and a base predicate that says no. -/
theorem damping_factor_condition_first_step_witness :
    damping_factor_condition (fun _ => false)
      { ratSolver with solution_change_norms := [7], sufficient_improvement_factor := 0 }
      = true :=
  (damping_factor_condition_first_step (fun _ => false)
    { ratSolver with solution_change_norms := [7], sufficient_improvement_factor := 0 }
    7 rfl rfl).1

end FirstStepTheorems

section ConstructionTheorems
variable [LinearOrderedField D]

/-- C12: after `init_picard`, whatever the object held before, the settings are the
documented defaults: tolerance 1e-3 of kind relative solution change, manual damping off,
manual damping factor 1, initial automatic damping factor 1, damping ratio 2, minimal
damping coefficient 1e-4, sufficient improvement factor 1.05, 3 successful steps to
increase, Jacobian improvement factor 0.1, 0 steps with a reused Jacobian, Anderson off,
3 last vectors used, Anderson beta 1. -/
theorem init_picard_defaults (s : PicardMatrixSolver D K) :
    (init_picard s).tolerance = 1 / 1000
    ∧ (init_picard s).tolerance_type = NonlinearConvergenceMeasurementType.SolutionChangeRelative
    ∧ (init_picard s).manual_damping = false
    ∧ (init_picard s).manual_damping_factor = 1
    ∧ (init_picard s).initial_auto_damping_factor = 1
    ∧ (init_picard s).auto_damping_ratio = 2
    ∧ (init_picard s).min_allowed_damping_coeff = 1 / 10000
    ∧ (init_picard s).sufficient_improvement_factor = 105 / 100
    ∧ (init_picard s).necessary_successful_steps_to_increase = 3
    ∧ (init_picard s).sufficient_improvement_factor_jacobian = 1 / 10
    ∧ (init_picard s).max_steps_with_reused_jacobian = 0
    ∧ (init_picard s).anderson_is_on = false
    ∧ (init_picard s).num_last_vectors_used = 3
    ∧ (init_picard s).anderson_beta = 1 := by
  simp only [init_picard, set_tolerance]
  norm_num

end ConstructionTheorems

section CustomizationTheorems
variable [LinearOrderedField D]

/-- C18: `use_overloaded_damping_factor_condition b` sets the flag to `b` and changes no other
data member; with the flag off `damping_factor_condition` returns what the predicate of the
base class returns, for every norm history; with the flag on, as it is after construction,
its value does not depend on the predicate of the base class. -/
theorem use_overloaded_damping_factor_condition_spec (s : PicardMatrixSolver D K) :
    (∀ b : Bool,
      (use_overloaded_damping_factor_condition b s).damping_factor_condition_overloaded = b
      ∧ { use_overloaded_damping_factor_condition b s with
            damping_factor_condition_overloaded := s.damping_factor_condition_overloaded } = s)
    ∧ (∀ (base : PicardMatrixSolver D K → Bool) (norms : List D),
        damping_factor_condition base
            (use_overloaded_damping_factor_condition false
              { s with solution_change_norms := norms })
          = base (use_overloaded_damping_factor_condition false
              { s with solution_change_norms := norms }))
    ∧ (∀ (base1 base2 : PicardMatrixSolver D K → Bool) (norms : List D),
        damping_factor_condition base1
            (use_overloaded_damping_factor_condition true
              { s with solution_change_norms := norms })
          = damping_factor_condition base2
            (use_overloaded_damping_factor_condition true
              { s with solution_change_norms := norms }))
    ∧ (init_picard s).damping_factor_condition_overloaded = true
    ∧ ∀ (base1 base2 : PicardMatrixSolver D K → Bool) (norms : List D),
        damping_factor_condition base1 { init_picard s with solution_change_norms := norms }
          = damping_factor_condition base2
              { init_picard s with solution_change_norms := norms } := by
  refine ⟨fun b => ⟨rfl, rfl⟩, ?_, ?_, rfl, ?_⟩
  · intro base norms
    simp [damping_factor_condition, use_overloaded_damping_factor_condition]
  · intro base1 base2 norms
    simp [damping_factor_condition, use_overloaded_damping_factor_condition]
  · intro base1 base2 norms
    simp [damping_factor_condition, init_picard, set_tolerance]

end CustomizationTheorems

section SymmetryTheorems
variable [Field K]

/-- C14: for `n = num_last_vectors_used - 2 >= 1` and any memory content, the matrix
`calculate_anderson_coeffs` sets up is symmetric: `M[i][j] = M[j][i]` for all `i, j < n`,
over any field of scalars (real or complex: the products are not conjugated). -/
theorem anderson_matrix_symmetric (s : PicardMatrixSolver D K)
    (hn : 1 ≤ s.num_last_vectors_used - 2) :
    ∀ i j, i < s.num_last_vectors_used - 2 → j < s.num_last_vectors_used - 2 →
      rd (row (anderson_system s.previous_vectors s.problem_size
            (s.num_last_vectors_used - 2)).1 i) j
        = rd (row (anderson_system s.previous_vectors s.problem_size
            (s.num_last_vectors_used - 2)).1 j) i := by
  have _ := hn
  obtain ⟨_, _, _, _, hM⟩ := anderson_system_spec s.previous_vectors s.problem_size
    (s.num_last_vectors_used - 2)
  intro i j hi hj
  rw [hM i j hi hj, hM j i hj hi]
  exact Finset.sum_congr rfl (fun k _ => mul_comm _ _)

/-- C14 at a concrete input: depth 4, memory `[0, 1], [1, 3], [3, 4], [5, 9]`, entries
`M[0][1]` and `M[1][0]`. -/
theorem anderson_matrix_symmetric_witness :
    rd (row (anderson_system [[(0 : ℚ), 1], [1, 3], [3, 4], [5, 9]] 2 (4 - 2)).1 0) 1
      = rd (row (anderson_system [[(0 : ℚ), 1], [1, 3], [3, 4], [5, 9]] 2 (4 - 2)).1 1) 0 :=
  anderson_matrix_symmetric (D := ℚ)
    { ratSolver with problem_size := 2, num_last_vectors_used := 4,
                     previous_vectors := [[0, 1], [1, 3], [3, 4], [5, 9]],
                     anderson_coeffs := [0, 0, 0] }
    (by decide) 0 1 (by decide) (by decide)

end SymmetryTheorems

section FixedPointTheorems
variable [LinearOrderedField D] [Field K]

/-- C13: when the candidate of the linear solve equals the current iterate,
`update_solution_return_change_norm` returns 0 and leaves the solution vector (and every
other data member) unchanged, for every damping-factor history; `std::abs` and `std::sqrt`
are only required to map 0 to 0. -/
theorem update_solution_at_fixed_point (ops : ScalarOps D K) (s : PicardMatrixSolver D K)
    (hx : s.sln_vector.length = s.problem_size)
    (habs : ops.abs 0 = 0) (hsqrt : ops.sqrt 0 = 0) :
    (update_solution_return_change_norm ops s s.sln_vector).1 = 0
    ∧ (update_solution_return_change_norm ops s s.sln_vector).2.sln_vector = s.sln_vector
    ∧ (update_solution_return_change_norm ops s s.sln_vector).2 = s := by
  obtain ⟨h1, h2, h3⟩ := update_solution_loop_inv ops (s.p_damping_factors.getLastD 0)
    s.sln_vector s.sln_vector s.problem_size (le_of_eq hx.symm)
  have hvec : (forLoop s.problem_size
      (update_solution_body ops (s.p_damping_factors.getLastD 0) s.sln_vector)
      ((0 : D), s.sln_vector)).2 = s.sln_vector := by
    apply ext_rd _ _ h2
    intro i _
    rw [h3 i]
    split <;> simp
  have hnorm : (forLoop s.problem_size
      (update_solution_body ops (s.p_damping_factors.getLastD 0) s.sln_vector)
      ((0 : D), s.sln_vector)).1 = 0 := by
    rw [h1]
    apply Finset.sum_eq_zero
    intro i _
    rw [sub_self, habs]
    simp
  simp only [update_solution_return_change_norm, hvec, hnorm, hsqrt, zero_mul, true_and]

/-- C13 at a concrete input: iterate and candidate `[6, -2]`, damping factor `1/2`. -/
theorem update_solution_at_fixed_point_witness :
    (update_solution_return_change_norm ratOps
        { ratSolver with problem_size := 2, sln_vector := [6, -2],
                         p_damping_factors := [1, 1 / 2] } [6, -2]).1 = 0
    ∧ (update_solution_return_change_norm ratOps
        { ratSolver with problem_size := 2, sln_vector := [6, -2],
                         p_damping_factors := [1, 1 / 2] } [6, -2]).2.sln_vector = [6, -2] :=
  have h := update_solution_at_fixed_point ratOps
    { ratSolver with problem_size := 2, sln_vector := [6, -2], p_damping_factors := [1, 1 / 2] }
    rfl (by decide!) (by decide!)
  ⟨h.1, h.2.1⟩

end FixedPointTheorems

section AccelerationStep
variable [LinearOrderedField D] [Field K]

/-- Member `handle_previous_vectors` is `store_new_vector` followed, on a full memory, by
`acceleration_step`. -/
theorem handle_previous_vectors_eq (ops : ScalarOps D K) (dense : DenseMatrixOperations K)
    (s : PicardMatrixSolver D K) :
    handle_previous_vectors ops dense s
      = if s.anderson_is_on then
          if (store_new_vector s).vec_in_memory ≥ (store_new_vector s).num_last_vectors_used
          then acceleration_step ops dense (store_new_vector s)
          else ⟨none, store_new_vector s⟩
        else ⟨none, s⟩ := rfl

/-- Member data `acceleration_step` writes: only the coefficients and the buffer of the
accelerated vector. -/
theorem acceleration_step_writes (ops : ScalarOps D K) (dense : DenseMatrixOperations K)
    (s : PicardMatrixSolver D K) :
    ∃ (c v : List K), (acceleration_step ops dense s).state
        = { s with anderson_coeffs := c, previous_Anderson_sln_vector := v } := by
  obtain ⟨c, hc⟩ := calculate_anderson_coeffs_frame dense s
  simp only [acceleration_step]
  cases hthr : (calculate_anderson_coeffs dense s).thrown with
  | some e =>
    simp only []
    rw [hc]
    exact ⟨c, s.previous_Anderson_sln_vector, rfl⟩
  | none =>
    simp only []
    rw [hc]
    exact ⟨c, _, rfl⟩

/-- The buffer of the accelerated vector keeps its length in `acceleration_step`. -/
theorem acceleration_step_length (ops : ScalarOps D K) (dense : DenseMatrixOperations K)
    (s : PicardMatrixSolver D K)
    (hbuf : s.previous_Anderson_sln_vector.length = s.problem_size) :
    (acceleration_step ops dense s).state.previous_Anderson_sln_vector.length
        = s.problem_size := by
  obtain ⟨c, hc⟩ := calculate_anderson_coeffs_frame dense s
  have hcomb := anderson_combination_eq ops (calculate_anderson_coeffs dense s).state
    (by rw [hc]; exact hbuf)
  simp only [acceleration_step]
  cases hthr : (calculate_anderson_coeffs dense s).thrown with
  | some e =>
    simp only []
    rw [hc]
    exact hbuf
  | none =>
    simp only []
    rw [hcomb, hc]
    simp

/-- C15: the acceleration step (`calculate_anderson_coeffs` followed by the combination loops)
changes no entry of the memory, and the accelerated vector it leaves in an allocated
buffer has `problem_size` components, the length of each memory entry. -/
theorem acceleration_step_keeps_memory (ops : ScalarOps D K)
    (dense : DenseMatrixOperations K) (s : PicardMatrixSolver D K)
    (hbuf : s.previous_Anderson_sln_vector.length = s.problem_size)
    (hslots : ∀ j, j < s.num_last_vectors_used →
      (row s.previous_vectors j).length = s.problem_size) :
    (acceleration_step ops dense s).state.previous_vectors = s.previous_vectors
    ∧ (∀ j k, rd (row (acceleration_step ops dense s).state.previous_vectors j) k
        = rd (row s.previous_vectors j) k)
    ∧ (acceleration_step ops dense s).state.previous_Anderson_sln_vector.length
        = s.problem_size
    ∧ ∀ j, j < s.num_last_vectors_used →
        (acceleration_step ops dense s).state.previous_Anderson_sln_vector.length
          = (row (acceleration_step ops dense s).state.previous_vectors j).length := by
  obtain ⟨c, v, hcv⟩ := acceleration_step_writes ops dense s
  have hlen := acceleration_step_length ops dense s hbuf
  have hpv : (acceleration_step ops dense s).state.previous_vectors = s.previous_vectors := by
    rw [hcv]
  refine ⟨hpv, fun j k => by rw [hpv], hlen, ?_⟩
  intro j hj
  rw [hlen, hpv, hslots j hj]

/-- C15 at a concrete input: depth 3, full memory `[0], [1], [3]`. -/
theorem acceleration_step_keeps_memory_witness :
    (acceleration_step ratOps (denseLU ratOps)
        { andersonSolver with vec_in_memory := 3,
                              previous_vectors := [[0], [1], [3]] }).state.previous_vectors
      = [[0], [1], [3]]
    ∧ (acceleration_step ratOps (denseLU ratOps)
        { andersonSolver with vec_in_memory := 3, previous_vectors := [[0], [1], [3]]
          }).state.previous_Anderson_sln_vector.length = 1 :=
  have h := acceleration_step_keeps_memory ratOps (denseLU ratOps)
    { andersonSolver with vec_in_memory := 3, previous_vectors := [[0], [1], [3]] }
    rfl (by decide)
  ⟨h.1, h.2.2.1⟩

end AccelerationStep

/-- Allocation data `store_new_vector` leaves alone: the switch and the number of slots. -/
theorem store_new_vector_alloc (s : PicardMatrixSolver D K) :
    (store_new_vector s).anderson_is_on = s.anderson_is_on
    ∧ (store_new_vector s).previous_vectors.length = s.previous_vectors.length := by
  simp only [store_new_vector]
  split
  · simp
  · simp [(shift_loop_inv s.previous_vectors (s.num_last_vectors_used - 1)).1]

section OccupancyProofs
variable [LinearOrderedField D] [Field K]

/-- One call of `handle_previous_vectors` with Anderson on: the switch, the depth and the
number of slots are kept and the occupancy grows by one until the memory is full. -/
theorem handle_previous_vectors_occupancy (ops : ScalarOps D K)
    (dense : DenseMatrixOperations K) (s : PicardMatrixSolver D K)
    (hon : s.anderson_is_on = true) :
    (handle_previous_vectors ops dense s).state.anderson_is_on = true
    ∧ (handle_previous_vectors ops dense s).state.num_last_vectors_used
        = s.num_last_vectors_used
    ∧ (handle_previous_vectors ops dense s).state.previous_vectors.length
        = s.previous_vectors.length
    ∧ (handle_previous_vectors ops dense s).state.vec_in_memory
        = if s.vec_in_memory < s.num_last_vectors_used then s.vec_in_memory + 1
          else s.vec_in_memory := by
  obtain ⟨_, _, f3, _, _, _, f7⟩ := store_new_vector_frame s
  obtain ⟨a1, a2⟩ := store_new_vector_alloc s
  obtain ⟨c, v, hcv⟩ := acceleration_step_writes ops dense (store_new_vector s)
  rw [handle_previous_vectors_eq, if_pos hon]
  split
  · rw [hcv]
    exact ⟨by rw [← hon]; exact a1, f3, a2, f7⟩
  · exact ⟨by rw [← hon]; exact a1, f3, a2, f7⟩

/-- The occupancy after a run of calls started from a state with Anderson on. -/
theorem anderson_calls_occupancy (ops : ScalarOps D K) (dense : DenseMatrixOperations K)
    (xs : List (List K)) :
    ∀ st : PicardMatrixSolver D K, st.anderson_is_on = true →
      st.vec_in_memory ≤ st.num_last_vectors_used →
      (xs.foldl
        (fun st x => (handle_previous_vectors ops dense { st with sln_vector := x }).state)
        st).anderson_is_on = true
      ∧ (xs.foldl
        (fun st x => (handle_previous_vectors ops dense { st with sln_vector := x }).state)
        st).num_last_vectors_used = st.num_last_vectors_used
      ∧ (xs.foldl
        (fun st x => (handle_previous_vectors ops dense { st with sln_vector := x }).state)
        st).previous_vectors.length = st.previous_vectors.length
      ∧ (xs.foldl
        (fun st x => (handle_previous_vectors ops dense { st with sln_vector := x }).state)
        st).vec_in_memory = min (st.vec_in_memory + xs.length) st.num_last_vectors_used := by
  induction xs with
  | nil =>
    intro st hon hle
    exact ⟨hon, rfl, rfl, (min_eq_left hle).symm⟩
  | cons x xs ih =>
    intro st hon hle
    obtain ⟨h1, h2, h3, h4⟩ :=
      handle_previous_vectors_occupancy ops dense { st with sln_vector := x } hon
    simp only [] at h2 h3 h4
    have hle2 : (handle_previous_vectors ops dense { st with sln_vector := x }).state.vec_in_memory
        ≤ (handle_previous_vectors ops dense
            { st with sln_vector := x }).state.num_last_vectors_used := by
      rw [h2, h4]; split <;> omega
    obtain ⟨i1, i2, i3, i4⟩ := ih _ h1 hle2
    simp only [List.foldl_cons, List.length_cons]
    refine ⟨i1, by rw [i2, h2], by rw [i3, h3], ?_⟩
    rw [i4, h2, h4]
    split
    · congr 1; omega
    · rw [min_eq_right (by omega), min_eq_right (by omega)]

end OccupancyProofs

section OccupancyTheorems
variable [LinearOrderedField D] [Field K]

/-- C19: with Anderson on and `N = num_last_vectors_used >= 2`, after `init_anderson` and `k`
calls of `handle_previous_vectors` the occupancy `vec_in_memory` is `min (k + 1) N`, so it
stays between 1 and `N`, the number of allocated slots; and call number `k + 1` runs the
acceleration step (coefficients and accelerated vector) if `k + 1 >= N - 1`, and otherwise
only stores the vector, leaving coefficients and accelerated vector as they were. -/
theorem anderson_run_occupancy (ops : ScalarOps D K) (dense : DenseMatrixOperations K)
    (s : PicardMatrixSolver D K) (hon : s.anderson_is_on = true)
    (hN : 2 ≤ s.num_last_vectors_used) (xs : List (List K)) :
    (anderson_run ops dense s xs).vec_in_memory = min (xs.length + 1) s.num_last_vectors_used
    ∧ 1 ≤ (anderson_run ops dense s xs).vec_in_memory
    ∧ (anderson_run ops dense s xs).vec_in_memory ≤ s.num_last_vectors_used
    ∧ (anderson_run ops dense s xs).previous_vectors.length = s.num_last_vectors_used
    ∧ ∀ x : List K,
        (s.num_last_vectors_used - 1 ≤ xs.length + 1 →
          handle_previous_vectors ops dense
              { anderson_run ops dense s xs with sln_vector := x }
            = acceleration_step ops dense
                (store_new_vector { anderson_run ops dense s xs with sln_vector := x }))
        ∧ (xs.length + 1 < s.num_last_vectors_used - 1 →
          handle_previous_vectors ops dense
              { anderson_run ops dense s xs with sln_vector := x }
            = ⟨none, store_new_vector { anderson_run ops dense s xs with sln_vector := x }⟩
          ∧ (handle_previous_vectors ops dense
              { anderson_run ops dense s xs with sln_vector := x }).state.anderson_coeffs
              = (anderson_run ops dense s xs).anderson_coeffs
          ∧ (handle_previous_vectors ops dense
              { anderson_run ops dense s xs with
                  sln_vector := x }).state.previous_Anderson_sln_vector
              = (anderson_run ops dense s xs).previous_Anderson_sln_vector) := by
  have hi_on : (init_anderson s).anderson_is_on = true := by
    simp [init_anderson, hon]
  have hi_N : (init_anderson s).num_last_vectors_used = s.num_last_vectors_used := by
    simp [init_anderson, hon]
  have hi_vec : (init_anderson s).vec_in_memory = 1 := by
    simp [init_anderson, hon]
  have hi_len : (init_anderson s).previous_vectors.length = s.num_last_vectors_used := by
    simp [init_anderson, hon]
  obtain ⟨r1, r2, r3, r4⟩ := anderson_calls_occupancy ops dense xs (init_anderson s) hi_on
    (by rw [hi_vec, hi_N]; omega)
  rw [hi_N] at r2
  rw [hi_len] at r3
  rw [hi_vec, hi_N, Nat.add_comm] at r4
  have hvec : (anderson_run ops dense s xs).vec_in_memory
      = min (xs.length + 1) s.num_last_vectors_used := r4
  have hNrun : (anderson_run ops dense s xs).num_last_vectors_used
      = s.num_last_vectors_used := r2
  have honrun : (anderson_run ops dense s xs).anderson_is_on = true := r1
  refine ⟨hvec, by rw [hvec]; exact le_min (by omega) (by omega),
    by rw [hvec]; exact min_le_right _ _, r3, ?_⟩
  have key : ∀ sx : PicardMatrixSolver D K, sx.anderson_is_on = true →
      sx.num_last_vectors_used = s.num_last_vectors_used →
      sx.vec_in_memory = min (xs.length + 1) s.num_last_vectors_used →
      (s.num_last_vectors_used - 1 ≤ xs.length + 1 →
        handle_previous_vectors ops dense sx
          = acceleration_step ops dense (store_new_vector sx))
      ∧ (xs.length + 1 < s.num_last_vectors_used - 1 →
        handle_previous_vectors ops dense sx = ⟨none, store_new_vector sx⟩
        ∧ (handle_previous_vectors ops dense sx).state.anderson_coeffs = sx.anderson_coeffs
        ∧ (handle_previous_vectors ops dense sx).state.previous_Anderson_sln_vector
            = sx.previous_Anderson_sln_vector) := by
    intro sx honx hNx hvx
    obtain ⟨_, _, f3, _, f5, f6, f7⟩ := store_new_vector_frame sx
    constructor
    · intro hk
      rw [handle_previous_vectors_eq, if_pos honx, if_pos]
      rw [f3, f7, hvx, hNx]
      by_cases hlt : xs.length + 1 < s.num_last_vectors_used
      · rw [min_eq_left (by omega), if_pos hlt]; omega
      · rw [min_eq_right (by omega), if_neg (by omega)]
    · intro hk
      have hnot : ¬ ((store_new_vector sx).vec_in_memory
          ≥ (store_new_vector sx).num_last_vectors_used) := by
        rw [f3, f7, hvx, hNx, min_eq_left (by omega), if_pos (by omega)]
        omega
      rw [handle_previous_vectors_eq, if_pos honx, if_neg hnot]
      exact ⟨rfl, f5, f6⟩
  intro x
  exact key { anderson_run ops dense s xs with sln_vector := x } honrun hNrun hvec

/-- C19 at a concrete input: depth 3, start vector `[0]`, two calls on `[1]` and `[3]`. -/
theorem anderson_run_occupancy_witness :
    (anderson_run ratOps (denseLU ratOps)
        { ratSolver with problem_size := 1, sln_vector := [0], anderson_is_on := true }
        [[1], [3]]).vec_in_memory = min (2 + 1) 3 :=
  (anderson_run_occupancy ratOps (denseLU ratOps)
    { ratSolver with problem_size := 1, sln_vector := [0], anderson_is_on := true }
    rfl (by decide) [[1], [3]]).1

end OccupancyTheorems

/-- On the square of a nonnegative rational the square root of `ratOps` is exact. -/
theorem ratOps_sqrt_sq (a : ℚ) (ha : 0 ≤ a) : ratOps.sqrt (a ^ 2) = a := by
  have hnum : 0 ≤ a.num := Rat.num_nonneg.mpr ha
  obtain ⟨m, hm⟩ := Int.eq_ofNat_of_zero_le hnum
  simp only [ratOps, Rat.num_pow, Rat.den_pow, hm]
  have e1 : ((m : ℤ) ^ 2).toNat = m ^ 2 := by
    have : ((m : ℤ) ^ 2) = ((m ^ 2 : ℕ) : ℤ) := by push_cast; ring
    rw [this, Int.toNat_natCast]
  rw [e1, Nat.sqrt_eq', Nat.sqrt_eq']
  have h := Rat.num_div_den a
  rw [hm] at h
  simpa using h

section FixedPointRunProofs
variable [LinearOrderedField D]

/-- One step of the scenario from the iterate `6 - 6 * (1/2)^k`. -/
theorem fixed_point_step (ops : ScalarOps D D) (s : PicardMatrixSolver D D) (k : Nat)
    (habs : ∀ z, ops.abs z = |z|) (hsqrt : ∀ a, 0 ≤ a → ops.sqrt (a ^ 2) = a)
    (hof : ∀ d, ops.ofDouble d = d)
    (hsize : s.problem_size = 1) (hd : s.p_damping_factors.getLastD 0 = 1)
    (hx : s.sln_vector = [6 - 6 * (1 / 2) ^ k]) :
    (update_solution_return_change_norm ops s [0.5 * rd s.sln_vector 0 + 3]).1
        = 3 * (1 / 2) ^ k
    ∧ (update_solution_return_change_norm ops s [0.5 * rd s.sln_vector 0 + 3]).2.sln_vector
        = [6 - 6 * (1 / 2) ^ (k + 1)]
    ∧ (update_solution_return_change_norm ops s [0.5 * rd s.sln_vector 0 + 3]).2.problem_size
        = 1
    ∧ (update_solution_return_change_norm ops s
        [0.5 * rd s.sln_vector 0 + 3]).2.p_damping_factors.getLastD 0 = 1 := by
  have hpos : (0 : D) ≤ 3 * (1 / 2) ^ k := by positivity
  have hdiff : (0.5 : D) * (6 - 6 * (1 / 2) ^ k) + 3 - (6 - 6 * (1 / 2) ^ k)
      = 3 * (1 / 2) ^ k := by
    norm_num; ring
  simp only [update_solution_return_change_norm, hsize, hd, hx, forLoop_succ, forLoop_zero,
    update_solution_body, rd, List.getD_cons_zero, List.set_cons_zero, hof, habs, hdiff,
    abs_of_nonneg hpos, zero_add, hsqrt _ hpos, mul_one, one_mul, true_and, and_true]
  rw [← hdiff, pow_succ]
  congr 1
  norm_num
  ring

/-- The state and the norms of the scenario after `k` steps. -/
theorem fixed_point_run_inv (ops : ScalarOps D D) (s : PicardMatrixSolver D D)
    (habs : ∀ z, ops.abs z = |z|) (hsqrt : ∀ a, 0 ≤ a → ops.sqrt (a ^ 2) = a)
    (hof : ∀ d, ops.ofDouble d = d)
    (hsize : s.problem_size = 1) (hd : s.p_damping_factors.getLastD 0 = 1)
    (hx : s.sln_vector = [0]) (k : Nat) :
    (fixed_point_run ops s k).1.sln_vector = [6 - 6 * (1 / 2) ^ k]
    ∧ (fixed_point_run ops s k).1.problem_size = 1
    ∧ (fixed_point_run ops s k).1.p_damping_factors.getLastD 0 = 1
    ∧ (fixed_point_run ops s k).2 = (List.range k).map (fun i => 3 * (1 / 2 : D) ^ i) := by
  induction k with
  | zero =>
    refine ⟨?_, hsize, hd, rfl⟩
    simp [fixed_point_run, hx]
  | succ k ih =>
    obtain ⟨i1, i2, i3, i4⟩ := ih
    obtain ⟨s1, s2, s3, s4⟩ :=
      fixed_point_step ops (fixed_point_run ops s k).1 k habs hsqrt hof i2 i3 i1
    simp only [fixed_point_run]
    refine ⟨s2, s3, s4, ?_⟩
    rw [s1, i4, List.range_succ, List.map_append]
    rfl

/-- The norm `3 * (1/2)^i` is below `1e-6` from `i = 22` on, and not before. -/
theorem norm_below_tolerance_iff (i : Nat) :
    (3 * (1 / 2 : D) ^ i < 1 / 1000000) ↔ 22 ≤ i := by
  constructor
  · intro h
    by_contra hlt
    have hle : i ≤ 21 := by omega
    have h1 : (1 / 2 : D) ^ 21 ≤ (1 / 2 : D) ^ i :=
      pow_le_pow_of_le_one (by norm_num) (by norm_num) hle
    have h2 : (1 / 1000000 : D) ≤ 3 * (1 / 2 : D) ^ 21 := by norm_num
    have h3 : (3 : D) * (1 / 2 : D) ^ 21 ≤ 3 * (1 / 2 : D) ^ i :=
      mul_le_mul_of_nonneg_left h1 (by norm_num)
    exact absurd h (not_lt.mpr (le_trans h2 h3))
  · intro h
    have h1 : (1 / 2 : D) ^ i ≤ (1 / 2 : D) ^ 22 :=
      pow_le_pow_of_le_one (by norm_num) (by norm_num) h
    have h2 : (3 : D) * (1 / 2 : D) ^ 22 < 1 / 1000000 := by norm_num
    exact lt_of_le_of_lt (mul_le_mul_of_nonneg_left h1 (by norm_num)) h2

end FixedPointRunProofs

theorem rd_map_range {α : Type} [Zero α] (f : Nat → α) (k i : Nat) (hi : i < k) :
    rd ((List.range k).map f) i = f i := by
  simp [rd, List.getD_eq_getElem?_getD, List.getElem?_map, List.getElem?_range hi]

section FixedPointRunTheorems
variable [LinearOrderedField D]

/-- C16: on a solver with real scalars, problem size one, start iterate `x_0 = 0` and damping
factor 1, `k` update steps with the candidate `0.5 * x + 3` leave the iterate
`x_k = 6 - 6 * 0.5^k`; the norm returned by step `i + 1` is `3 * 0.5^i`, half the norm of
the step before; it is below the tolerance `1e-6` exactly from step 23 on; and the iterates
converge to 6. -/
theorem fixed_point_run_spec [Archimedean D] (ops : ScalarOps D D)
    (s : PicardMatrixSolver D D)
    (habs : ∀ z, ops.abs z = |z|) (hsqrt : ∀ a, 0 ≤ a → ops.sqrt (a ^ 2) = a)
    (hof : ∀ d, ops.ofDouble d = d)
    (hsize : s.problem_size = 1) (hd : s.p_damping_factors.getLast? = some 1)
    (hx : s.sln_vector = [0]) :
    (∀ k,
      (fixed_point_run ops s k).1.sln_vector = [6 - 6 * (1 / 2) ^ k]
      ∧ (fixed_point_run ops s k).2.length = k
      ∧ (∀ i, i < k → rd (fixed_point_run ops s k).2 i = 3 * (1 / 2) ^ i)
      ∧ (∀ i, i + 1 < k →
          rd (fixed_point_run ops s k).2 (i + 1) = rd (fixed_point_run ops s k).2 i / 2)
      ∧ (∀ i, i < k → (rd (fixed_point_run ops s k).2 i < 1 / 1000000 ↔ 22 ≤ i)))
    ∧ ∀ ε : D, 0 < ε → ∃ k0, ∀ k, k0 ≤ k →
        |rd (fixed_point_run ops s k).1.sln_vector 0 - 6| < ε := by
  have hd0 : s.p_damping_factors.getLastD 0 = 1 := by
    rw [List.getLastD_eq_getLast?, hd]; rfl
  have hinv := fixed_point_run_inv ops s habs hsqrt hof hsize hd0 hx
  constructor
  · intro k
    obtain ⟨i1, _, _, i4⟩ := hinv k
    have hnorm : ∀ i, i < k → rd (fixed_point_run ops s k).2 i = 3 * (1 / 2) ^ i := by
      intro i hi
      rw [i4, rd_map_range _ k i hi]
    refine ⟨i1, by rw [i4]; simp, hnorm, ?_, ?_⟩
    · intro i hi
      rw [hnorm (i + 1) hi, hnorm i (by omega), pow_succ]
      ring
    · intro i hi
      rw [hnorm i hi]
      exact norm_below_tolerance_iff i
  · intro ε hε
    obtain ⟨k0, hk0⟩ := exists_pow_lt_of_lt_one (div_pos hε (by norm_num : (0 : D) < 6))
      (by norm_num : (1 / 2 : D) < 1)
    refine ⟨k0, fun k hk => ?_⟩
    obtain ⟨i1, _, _, _⟩ := hinv k
    have hle : (1 / 2 : D) ^ k ≤ (1 / 2 : D) ^ k0 :=
      pow_le_pow_of_le_one (by norm_num) (by norm_num) hk
    have hpos : (0 : D) ≤ 6 * (1 / 2) ^ k := by positivity
    have e : rd (fixed_point_run ops s k).1.sln_vector 0 - 6 = -(6 * (1 / 2 : D) ^ k) := by
      rw [i1]
      simp [rd]
    rw [e, abs_neg, abs_of_nonneg hpos]
    calc 6 * (1 / 2 : D) ^ k ≤ 6 * (1 / 2 : D) ^ k0 :=
          mul_le_mul_of_nonneg_left hle (by norm_num)
      _ < 6 * (ε / 6) := mul_lt_mul_of_pos_left hk0 (by norm_num)
      _ = ε := by field_simp

/-- C16 at a concrete input: rational arithmetic, damping history `[1]`, three steps. -/
theorem fixed_point_run_spec_witness :
    (fixed_point_run ratOps
        { ratSolver with problem_size := 1, sln_vector := [0], p_damping_factors := [1] }
        3).1.sln_vector = [6 - 6 * (1 / 2) ^ 3]
    ∧ (fixed_point_run ratOps
        { ratSolver with problem_size := 1, sln_vector := [0], p_damping_factors := [1] }
        3).2.length = 3 :=
  have h := (fixed_point_run_spec ratOps
    { ratSolver with problem_size := 1, sln_vector := [0], p_damping_factors := [1] }
    (fun _ => rfl) ratOps_sqrt_sq (fun _ => rfl) rfl rfl rfl).1 3
  ⟨h.1, h.2.1⟩

end FixedPointRunTheorems

section GramProofs
variable [LinearOrderedField D]

/-- A quadratic form of dot products is a sum of squares. -/
theorem gram_quadratic_form {ι : Type} (t : Finset ι) (d : ι → Nat → D) (y : ι → D)
    (p : Nat) :
    ∑ i in t, ∑ j in t, y i * (∑ k in Finset.range p, d i k * d j k) * y j
      = ∑ k in Finset.range p, (∑ i in t, y i * d i k) ^ 2 := by
  have hR : ∀ k, (∑ i in t, y i * d i k) ^ 2
      = ∑ i in t, ∑ j in t, y i * (d i k * d j k) * y j := by
    intro k
    rw [pow_two, Finset.sum_mul_sum]
    refine Finset.sum_congr rfl (fun i _ => Finset.sum_congr rfl (fun j _ => ?_))
    ring
  have hL : ∀ i j, y i * (∑ k in Finset.range p, d i k * d j k) * y j
      = ∑ k in Finset.range p, y i * (d i k * d j k) * y j := by
    intro i j
    rw [Finset.mul_sum, Finset.sum_mul]
  simp only [hR, hL]
  calc ∑ i in t, ∑ j in t, ∑ k in Finset.range p, y i * (d i k * d j k) * y j
      = ∑ i in t, ∑ k in Finset.range p, ∑ j in t, y i * (d i k * d j k) * y j :=
        Finset.sum_congr rfl (fun i _ => Finset.sum_comm)
    _ = ∑ k in Finset.range p, ∑ i in t, ∑ j in t, y i * (d i k * d j k) * y j :=
        Finset.sum_comm

/-- A sum of squares is zero exactly when every term is. -/
theorem sum_sq_eq_zero_iff (f : Nat → D) (p : Nat) :
    ∑ k in Finset.range p, f k ^ 2 = 0 ↔ ∀ k, k < p → f k = 0 := by
  rw [Finset.sum_eq_zero_iff_of_nonneg (fun k _ => sq_nonneg (f k))]
  constructor
  · intro h k hk
    exact pow_eq_zero_iff (two_ne_zero) |>.mp (h k (Finset.mem_range.mpr hk))
  · intro h k hk
    rw [h k (Finset.mem_range.mp hk)]
    simp

/-- The matrix set up by `calculate_anderson_coeffs` has determinant zero exactly when some
nonzero combination of the difference vectors `r_n - r_i` vanishes. -/
theorem anderson_matrix_det_zero_iff (pv : List (List D)) (p n : Nat) :
    (toMatrix (anderson_system pv p n).1 n).det = 0
      ↔ ∃ v : Fin n → D, v ≠ 0 ∧ ∀ k, k < p →
          ∑ i : Fin n, v i * (residual pv n k - residual pv i.val k) = 0 := by
  obtain ⟨_, _, _, _, hM⟩ := anderson_system_spec pv p n
  rw [← Matrix.exists_mulVec_eq_zero_iff]
  have hentry : ∀ i j : Fin n, toMatrix (anderson_system pv p n).1 n i j
      = ∑ k in Finset.range p,
          (residual pv n k - residual pv i.val k) * (residual pv n k - residual pv j.val k) :=
    fun i j => hM i.val j.val i.isLt j.isLt
  have hgram := fun v : Fin n → D => gram_quadratic_form (Finset.univ : Finset (Fin n))
    (fun i k => residual pv n k - residual pv i.val k) v p
  constructor
  · rintro ⟨v, hv, hMv⟩
    refine ⟨v, hv, ?_⟩
    have hq : ∑ i : Fin n, ∑ j : Fin n,
        v i * (∑ k in Finset.range p,
          (residual pv n k - residual pv i.val k) * (residual pv n k - residual pv j.val k))
          * v j = 0 := by
      apply Finset.sum_eq_zero
      intro i _
      have hi : (toMatrix (anderson_system pv p n).1 n).mulVec v i = 0 := by
        rw [hMv]; rfl
      simp only [Matrix.mulVec, Matrix.dotProduct, hentry] at hi
      calc ∑ j : Fin n, v i * (∑ k in Finset.range p,
              (residual pv n k - residual pv i.val k)
                * (residual pv n k - residual pv j.val k)) * v j
          = v i * ∑ j : Fin n, (∑ k in Finset.range p,
              (residual pv n k - residual pv i.val k)
                * (residual pv n k - residual pv j.val k)) * v j := by
            rw [Finset.mul_sum]
            exact Finset.sum_congr rfl (fun j _ => by ring)
        _ = 0 := by rw [hi, mul_zero]
    rw [hgram v] at hq
    exact (sum_sq_eq_zero_iff _ p).mp hq
  · rintro ⟨v, hv, hzero⟩
    refine ⟨v, hv, ?_⟩
    funext i
    simp only [Matrix.mulVec, Matrix.dotProduct, hentry, Pi.zero_apply]
    calc ∑ j : Fin n, (∑ k in Finset.range p,
            (residual pv n k - residual pv i.val k)
              * (residual pv n k - residual pv j.val k)) * v j
        = ∑ j : Fin n, ∑ k in Finset.range p,
            (residual pv n k - residual pv i.val k)
              * (v j * (residual pv n k - residual pv j.val k)) := by
          refine Finset.sum_congr rfl (fun j _ => ?_)
          rw [Finset.sum_mul]
          exact Finset.sum_congr rfl (fun k _ => by ring)
      _ = ∑ k in Finset.range p, ∑ j : Fin n,
            (residual pv n k - residual pv i.val k)
              * (v j * (residual pv n k - residual pv j.val k)) := Finset.sum_comm
      _ = 0 := by
          apply Finset.sum_eq_zero
          intro k hk
          rw [← Finset.mul_sum, hzero k (Finset.mem_range.mp hk), mul_zero]

end GramProofs

section GramTheorems
variable [LinearOrderedField D]

/-- C20: for real scalars, any memory content and any vector `y`, with
`n = num_last_vectors_used - 2`, the matrix `M` set up by `calculate_anderson_coeffs`
satisfies `sum_{i,j} y[i] * M[i][j] * y[j] = sum_k (sum_i y[i] * (r_n[k] - r_i[k]))^2`,
which is nonnegative and zero exactly when `sum_i y[i] * (r_n - r_i)` is the zero vector;
and the determinant of `M` is zero exactly when the difference vectors `r_n - r_i` are
linearly dependent. -/
theorem anderson_matrix_gram (s : PicardMatrixSolver D D) (y : Nat → D) :
    (∑ i in Finset.range (s.num_last_vectors_used - 2),
        ∑ j in Finset.range (s.num_last_vectors_used - 2),
          y i * rd (row (anderson_system s.previous_vectors s.problem_size
                (s.num_last_vectors_used - 2)).1 i) j * y j
      = ∑ k in Finset.range s.problem_size,
          (∑ i in Finset.range (s.num_last_vectors_used - 2),
            y i * (residual s.previous_vectors (s.num_last_vectors_used - 2) k
                    - residual s.previous_vectors i k)) ^ 2)
    ∧ 0 ≤ ∑ i in Finset.range (s.num_last_vectors_used - 2),
        ∑ j in Finset.range (s.num_last_vectors_used - 2),
          y i * rd (row (anderson_system s.previous_vectors s.problem_size
                (s.num_last_vectors_used - 2)).1 i) j * y j
    ∧ (∑ i in Finset.range (s.num_last_vectors_used - 2),
        ∑ j in Finset.range (s.num_last_vectors_used - 2),
          y i * rd (row (anderson_system s.previous_vectors s.problem_size
                (s.num_last_vectors_used - 2)).1 i) j * y j = 0
        ↔ ∀ k, k < s.problem_size →
            ∑ i in Finset.range (s.num_last_vectors_used - 2),
              y i * (residual s.previous_vectors (s.num_last_vectors_used - 2) k
                      - residual s.previous_vectors i k) = 0)
    ∧ ((toMatrix (anderson_system s.previous_vectors s.problem_size
            (s.num_last_vectors_used - 2)).1 (s.num_last_vectors_used - 2)).det = 0
        ↔ ∃ v : Fin (s.num_last_vectors_used - 2) → D, v ≠ 0 ∧ ∀ k, k < s.problem_size →
            ∑ i : Fin (s.num_last_vectors_used - 2),
              v i * (residual s.previous_vectors (s.num_last_vectors_used - 2) k
                      - residual s.previous_vectors i.val k) = 0) := by
  obtain ⟨_, _, _, _, hM⟩ := anderson_system_spec s.previous_vectors s.problem_size
    (s.num_last_vectors_used - 2)
  have hq : ∑ i in Finset.range (s.num_last_vectors_used - 2),
        ∑ j in Finset.range (s.num_last_vectors_used - 2),
          y i * rd (row (anderson_system s.previous_vectors s.problem_size
                (s.num_last_vectors_used - 2)).1 i) j * y j
      = ∑ k in Finset.range s.problem_size,
          (∑ i in Finset.range (s.num_last_vectors_used - 2),
            y i * (residual s.previous_vectors (s.num_last_vectors_used - 2) k
                    - residual s.previous_vectors i k)) ^ 2 := by
    rw [← gram_quadratic_form (Finset.range (s.num_last_vectors_used - 2))
      (fun i k => residual s.previous_vectors (s.num_last_vectors_used - 2) k
        - residual s.previous_vectors i k) y s.problem_size]
    refine Finset.sum_congr rfl (fun i hi => Finset.sum_congr rfl (fun j hj => ?_))
    rw [hM i j (Finset.mem_range.mp hi) (Finset.mem_range.mp hj)]
  refine ⟨hq, ?_, ?_, anderson_matrix_det_zero_iff s.previous_vectors s.problem_size _⟩
  · rw [hq]
    exact Finset.sum_nonneg (fun k _ => sq_nonneg _)
  · rw [hq]
    exact sum_sq_eq_zero_iff _ s.problem_size

end GramTheorems

section DampingControllerProofs
variable [LinearOrderedField D]

/-- A `diverge` decision means that the divided damping factor is below the minimum, a
`decrease` decision that it is not. -/
theorem damping_decide_floor (base : PicardMatrixSolver D K → Bool)
    (s : PicardMatrixSolver D K) (r : DampingRun D) :
    (damping_decide base s r = DampingDecision.diverge →
      r.damping_factors.getLastD 0 / s.auto_damping_ratio < s.min_allowed_damping_coeff)
    ∧ (damping_decide base s r = DampingDecision.decrease →
      ¬ r.damping_factors.getLastD 0 / s.auto_damping_ratio < s.min_allowed_damping_coeff) := by
  simp only [damping_decide]
  split_ifs with h1 h2 h3 h4
  · exact ⟨(fun h => by cases h), (fun h => by cases h)⟩
  · exact ⟨(fun h => by cases h), (fun h => by cases h)⟩
  · exact ⟨(fun h => by cases h), (fun h => by cases h)⟩
  · exact ⟨fun _ => h4, (fun h => by cases h)⟩
  · exact ⟨(fun h => by cases h), fun _ => h4⟩

/-- One step of the damping controller keeps the bounds: every recorded factor but the last is
between the minimum and 1, the last is at most 1 and is below the minimum exactly when
`Divergence` has been reported. -/
theorem damping_controller_step_inv (base : PicardMatrixSolver D K → Bool)
    (s : PicardMatrixSolver D K) (r : DampingRun D)
    (hmin : 0 ≤ s.min_allowed_damping_coeff) (hratio : 1 ≤ s.auto_damping_ratio)
    (hman : s.manual_damping = true →
      s.min_allowed_damping_coeff ≤ s.manual_damping_factor ∧ s.manual_damping_factor ≤ 1)
    (hinv : ∃ init last, r.damping_factors = init ++ [last]
      ∧ (∀ d ∈ init, s.min_allowed_damping_coeff ≤ d ∧ d ≤ 1)
      ∧ last ≤ 1
      ∧ (r.diverged = false → s.min_allowed_damping_coeff ≤ last)
      ∧ (r.diverged = true → last < s.min_allowed_damping_coeff)) :
    ∃ init last, (damping_controller_step base s r).damping_factors = init ++ [last]
      ∧ (∀ d ∈ init, s.min_allowed_damping_coeff ≤ d ∧ d ≤ 1)
      ∧ last ≤ 1
      ∧ ((damping_controller_step base s r).diverged = false →
          s.min_allowed_damping_coeff ≤ last)
      ∧ ((damping_controller_step base s r).diverged = true →
          last < s.min_allowed_damping_coeff) := by
  obtain ⟨init, last, hh, hinit, hle, hok, hbad⟩ := hinv
  obtain ⟨hfloor1, hfloor2⟩ := damping_decide_floor base s r
  cases hdiv : r.diverged with
  | true =>
    have e : damping_controller_step base s r = r := by
      simp only [damping_controller_step, hdiv, if_true]
    rw [e]
    exact ⟨init, last, hh, hinit, hle, hok, hbad⟩
  | false =>
    have hlast := hok hdiv
    have hpos : 0 ≤ last := le_trans hmin hlast
    have hd : r.damping_factors.getLastD 0 = last := by
      rw [hh, List.getLastD_eq_getLast?]; simp
    rw [hd] at hfloor1 hfloor2
    have hall : ∀ d ∈ init ++ [last], s.min_allowed_damping_coeff ≤ d ∧ d ≤ 1 := by
      intro d hdm
      rcases List.mem_append.mp hdm with h | h
      · exact hinit d h
      · rw [List.mem_singleton.mp h]; exact ⟨hlast, hle⟩
    have hdivle : last / s.auto_damping_ratio ≤ 1 :=
      le_trans (div_le_self hpos hratio) hle
    cases hm : s.manual_damping with
    | true =>
      have e : damping_controller_step base s r
          = { r with damping_factors := r.damping_factors ++ [s.manual_damping_factor] } := by
        simp only [damping_controller_step, hdiv, hm, if_true, Bool.false_eq_true, if_false]
      rw [e]
      exact ⟨init ++ [last], s.manual_damping_factor, by rw [hh], hall, (hman hm).2,
        fun _ => (hman hm).1, (fun h => by rw [hdiv] at h; cases h)⟩
    | false =>
      cases hdec : damping_decide base s r with
      | keep =>
        have e : (damping_controller_step base s r).damping_factors
              = r.damping_factors ++ [last]
            ∧ (damping_controller_step base s r).diverged = false := by
          simp only [damping_controller_step, hdiv, hm, hdec, hd, Bool.false_eq_true,
            if_false, and_self]
        rw [e.1, e.2, hh]
        exact ⟨init ++ [last], last, rfl, hall, hle, fun _ => hlast, (fun h => by cases h)⟩
      | increase =>
        have e : (damping_controller_step base s r).damping_factors
              = r.damping_factors ++ [min (last * s.auto_damping_ratio) 1.0]
            ∧ (damping_controller_step base s r).diverged = false := by
          simp only [damping_controller_step, hdiv, hm, hdec, hd, Bool.false_eq_true,
            if_false, and_self]
        rw [e.1, e.2, hh]
        refine ⟨init ++ [last], min (last * s.auto_damping_ratio) 1.0, rfl, hall, ?_,
          fun _ => ?_, (fun h => by cases h)⟩
        · exact le_trans (min_le_right _ _) (by norm_num)
        · apply le_min
          · exact le_trans hlast (le_mul_of_one_le_right hpos hratio)
          · exact le_trans (le_trans hlast hle) (by norm_num)
      | decrease =>
        have e : (damping_controller_step base s r).damping_factors
              = r.damping_factors ++ [last / s.auto_damping_ratio]
            ∧ (damping_controller_step base s r).diverged = false := by
          simp only [damping_controller_step, hdiv, hm, hdec, hd, Bool.false_eq_true,
            if_false, and_self]
        rw [e.1, e.2, hh]
        exact ⟨init ++ [last], last / s.auto_damping_ratio, rfl, hall, hdivle,
          fun _ => not_lt.mp (hfloor2 hdec), (fun h => by cases h)⟩
      | diverge =>
        have e : (damping_controller_step base s r).damping_factors
              = r.damping_factors ++ [last / s.auto_damping_ratio]
            ∧ (damping_controller_step base s r).diverged = true := by
          simp only [damping_controller_step, hdiv, hm, hdec, hd, Bool.false_eq_true,
            if_false, and_self]
        rw [e.1, e.2, hh]
        exact ⟨init ++ [last], last / s.auto_damping_ratio, rfl, hall, hdivle,
          (fun h => by cases h), fun _ => hfloor1 hdec⟩

end DampingControllerProofs

section DampingRunTheorems
variable [LinearOrderedField D]

/-- The bounds of `damping_controller_step_inv` hold after any number of steps. -/
theorem damping_steps_inv (base : PicardMatrixSolver D K → Bool)
    (s : PicardMatrixSolver D K)
    (hmin : 0 ≤ s.min_allowed_damping_coeff) (hratio : 1 ≤ s.auto_damping_ratio)
    (hman : s.manual_damping = true →
      s.min_allowed_damping_coeff ≤ s.manual_damping_factor ∧ s.manual_damping_factor ≤ 1)
    (norms : List D) :
    ∀ r : DampingRun D,
      (∃ init last, r.damping_factors = init ++ [last]
        ∧ (∀ d ∈ init, s.min_allowed_damping_coeff ≤ d ∧ d ≤ 1)
        ∧ last ≤ 1
        ∧ (r.diverged = false → s.min_allowed_damping_coeff ≤ last)
        ∧ (r.diverged = true → last < s.min_allowed_damping_coeff)) →
      ∃ init last,
        (norms.foldl
          (fun r norm =>
            damping_controller_step base s
              { r with solution_change_norms := r.solution_change_norms ++ [norm] })
          r).damping_factors = init ++ [last]
        ∧ (∀ d ∈ init, s.min_allowed_damping_coeff ≤ d ∧ d ≤ 1)
        ∧ last ≤ 1
        ∧ ((norms.foldl
          (fun r norm =>
            damping_controller_step base s
              { r with solution_change_norms := r.solution_change_norms ++ [norm] })
          r).diverged = false → s.min_allowed_damping_coeff ≤ last)
        ∧ ((norms.foldl
          (fun r norm =>
            damping_controller_step base s
              { r with solution_change_norms := r.solution_change_norms ++ [norm] })
          r).diverged = true → last < s.min_allowed_damping_coeff) := by
  induction norms with
  | nil => intro r h; exact h
  | cons norm norms ih =>
    intro r h
    exact ih _ (damping_controller_step_inv base s
      { r with solution_change_norms := r.solution_change_norms ++ [norm] }
      hmin hratio hman h)

/-- C17: for a valid configuration (minimum at least 0, damping ratio at least 1, start factor
between the minimum and 1), every damping factor the controller of the specification
records in a solve is at most 1 and at least `min_allowed_damping_coeff`, except that the
last recorded factor is below the minimum exactly when `Divergence` has been reported;
while no divergence is reported the factor the update step reads is within the bounds. -/
theorem damping_run_bounds (base : PicardMatrixSolver D K → Bool)
    (s : PicardMatrixSolver D K)
    (hmin : 0 ≤ s.min_allowed_damping_coeff) (hratio : 1 ≤ s.auto_damping_ratio)
    (hman : s.manual_damping = true →
      s.min_allowed_damping_coeff ≤ s.manual_damping_factor ∧ s.manual_damping_factor ≤ 1)
    (hauto : s.manual_damping = false →
      s.min_allowed_damping_coeff ≤ s.initial_auto_damping_factor
      ∧ s.initial_auto_damping_factor ≤ 1)
    (norms : List D) :
    (∀ d ∈ (damping_run base s norms).damping_factors,
      d ≤ 1
      ∧ (s.min_allowed_damping_coeff ≤ d
        ∨ ((damping_run base s norms).diverged = true
          ∧ (damping_run base s norms).damping_factors.getLast? = some d
          ∧ d < s.min_allowed_damping_coeff)))
    ∧ ((damping_run base s norms).diverged = false →
        (∀ d ∈ (damping_run base s norms).damping_factors,
          s.min_allowed_damping_coeff ≤ d ∧ d ≤ 1)
        ∧ s.min_allowed_damping_coeff
            ≤ ((damping_run base s norms).solver s).p_damping_factors.getLastD 0
        ∧ ((damping_run base s norms).solver s).p_damping_factors.getLastD 0 ≤ 1)
    ∧ ((damping_run base s norms).diverged = true →
        ∃ d, (damping_run base s norms).damping_factors.getLast? = some d
          ∧ d < s.min_allowed_damping_coeff) := by
  have hstart : s.min_allowed_damping_coeff
        ≤ (if s.manual_damping then s.manual_damping_factor
            else s.initial_auto_damping_factor)
      ∧ (if s.manual_damping then s.manual_damping_factor
            else s.initial_auto_damping_factor) ≤ 1 := by
    cases hm : s.manual_damping with
    | true => simpa using hman hm
    | false => simpa using hauto hm
  obtain ⟨init, last, hh, hinit, hle, hok, hbad⟩ :=
    damping_steps_inv base s hmin hratio hman norms
      { damping_factors :=
          [if s.manual_damping then s.manual_damping_factor
            else s.initial_auto_damping_factor]
        solution_change_norms := []
        successful_steps := 0
        diverged := false }
      ⟨[], _, rfl, fun d hd => absurd hd (List.not_mem_nil d), hstart.2,
        fun _ => hstart.1, (fun h => by cases h)⟩
  have hrun : (damping_run base s norms).damping_factors = init ++ [last] := hh
  have hgl : (damping_run base s norms).damping_factors.getLast? = some last := by
    rw [hrun]; simp
  refine ⟨?_, ?_, ?_⟩
  · intro d hd
    rw [hrun] at hd
    rcases List.mem_append.mp hd with h | h
    · exact ⟨(hinit d h).2, Or.inl (hinit d h).1⟩
    · rw [List.mem_singleton.mp h]
      refine ⟨hle, ?_⟩
      cases hdiv : (damping_run base s norms).diverged with
      | false => exact Or.inl (hok hdiv)
      | true => exact Or.inr ⟨rfl, hgl, hbad hdiv⟩
  · intro hdiv
    have hlast := hok hdiv
    have hd0 : ((damping_run base s norms).solver s).p_damping_factors.getLastD 0 = last := by
      simp only [DampingRun.solver]
      rw [List.getLastD_eq_getLast?, hgl]; rfl
    refine ⟨?_, by rw [hd0]; exact hlast, by rw [hd0]; exact hle⟩
    intro d hd
    rw [hrun] at hd
    rcases List.mem_append.mp hd with h | h
    · exact hinit d h
    · rw [List.mem_singleton.mp h]; exact ⟨hlast, hle⟩
  · intro hdiv
    exact ⟨last, hgl, hbad hdiv⟩

/-- C17 at a concrete input: the configuration of the constructor and norms that get worse
and then better. -/
theorem damping_run_bounds_witness :
    (init_picard ratSolver).min_allowed_damping_coeff
        ≤ ((damping_run (fun _ => false) (init_picard ratSolver)
            [4, 5, 6, 5, 4, 3, 2]).solver (init_picard ratSolver)).p_damping_factors.getLastD 0
    ∧ ((damping_run (fun _ => false) (init_picard ratSolver)
          [4, 5, 6, 5, 4, 3, 2]).solver (init_picard ratSolver)).p_damping_factors.getLastD 0
        ≤ 1 :=
  ((damping_run_bounds (fun _ => false) (init_picard ratSolver)
    (by decide!) (by decide!) (by decide!) (by decide!) [4, 5, 6, 5, 4, 3, 2]).2.1
    (by decide!)).2

end DampingRunTheorems

section DefaultConfiguration
variable [LinearOrderedField D]

/-- The settings of the constructor are a valid configuration of the damping controller:
automatic damping with ratio at least 1 and a start factor between the minimum and 1. -/
theorem init_picard_valid (s : PicardMatrixSolver D K) :
    0 ≤ (init_picard s).min_allowed_damping_coeff
    ∧ 1 ≤ (init_picard s).auto_damping_ratio
    ∧ (init_picard s).manual_damping = false
    ∧ (init_picard s).min_allowed_damping_coeff ≤ (init_picard s).initial_auto_damping_factor
    ∧ (init_picard s).initial_auto_damping_factor ≤ 1 := by
  simp only [init_picard, set_tolerance]
  norm_num

end DefaultConfiguration

end Hermes.Solvers

/-! # Theorems on the logging mixin -/

namespace Hermes.Mixins

/-- The three cases of the `switch` of `write_console`. -/
theorem write_console_cases (c : LogConstants) (code : Char) (text : String)
    (events : List LogEvent) :
    (code = c.HERMES_EC_WARNING →
      write_console c code text events
        = (Except.ok true, write_console_print 3 false text events))
    ∧ (code ≠ c.HERMES_EC_WARNING → code = c.HERMES_EC_INFO →
      write_console c code text events
        = (Except.ok true, write_console_print 0 true text events))
    ∧ (code ≠ c.HERMES_EC_WARNING → code ≠ c.HERMES_EC_INFO →
      write_console c code text events
        = (Except.error (LogException.UnknownErrorCode code), events)) := by
  refine ⟨fun h => ?_, fun h1 h2 => ?_, fun h1 h2 => ?_⟩
  · simp only [write_console, h, if_true]
    rfl
  · simp only [write_console]
    rw [if_neg h1, if_pos h2]
  · simp only [write_console]
    rw [if_neg h1, if_neg h2]

/-- With `verbose_output` on and `file_output_only` off, a message with a code that is
neither the warning nor the information code makes `hermes_log_message` throw before
anything is emitted. -/
theorem hermes_log_message_unknown_code (c : LogConstants) (env : LogEnvironment)
    (this : Loggable) (code : Char) (msg : String) (events : List LogEvent)
    (hw : code ≠ c.HERMES_EC_WARNING) (hi : code ≠ c.HERMES_EC_INFO)
    (hfile : this.file_output_only = false) :
    hermes_log_message c env this code msg events
      = ⟨Except.error (LogException.UnknownErrorCode code), this, events⟩ := by
  have h := (write_console_cases c code msg events).2.2 hw hi
  simp only [hermes_log_message, log_to_console, hfile, h, Bool.not_false, if_true]

/-- Members `warn` and `info` never throw, and `error` does not throw when `file_output_only`
is set: the console is then not written. -/
theorem warn_info_return (c : LogConstants) (env : LogEnvironment) (this : Loggable)
    (text : String) (events : List LogEvent) :
    (warn c env this text events).result = Except.ok ()
    ∧ (info c env this text events).result = Except.ok ()
    ∧ (this.file_output_only = true → (error c env this text events).result = Except.ok ()) := by
  obtain ⟨w1, _, _⟩ := write_console_cases c c.HERMES_EC_WARNING text events
  obtain ⟨i1, i2, _⟩ := write_console_cases c c.HERMES_EC_INFO text events
  refine ⟨?_, ?_, ?_⟩
  · simp only [warn, hermes_log_message, log_to_console, w1 rfl]
    cases this.verbose_output <;> cases this.file_output_only <;> rfl
  · by_cases h : c.HERMES_EC_INFO = c.HERMES_EC_WARNING
    · simp only [info, hermes_log_message, log_to_console, i1 h]
      cases this.verbose_output <;> cases this.file_output_only <;> rfl
    · simp only [info, hermes_log_message, log_to_console, i2 h rfl]
      cases this.verbose_output <;> cases this.file_output_only <;> rfl
  · intro hf
    simp only [error, hermes_log_message, log_to_console, hf]
    cases this.verbose_output <;> rfl

/-- C21: on the branch without `_WINDOWS`, `write_console` throws (`Unknown error code`) if
and only if the code is neither `HERMES_EC_WARNING` nor `HERMES_EC_INFO`, and returns true
otherwise; so with an error code distinct from those two, `error` on an object with
`verbose_output` on and `file_output_only` off throws and emits nothing; and with
`verbose_output` off `error`, `warn` and `info` return without emitting anything. -/
theorem write_console_throws_iff (c : LogConstants) (env : LogEnvironment)
    (hw : c.HERMES_EC_ERROR ≠ c.HERMES_EC_WARNING)
    (hi : c.HERMES_EC_ERROR ≠ c.HERMES_EC_INFO) :
    (∀ (code : Char) (text : String) (events : List LogEvent),
      ((∃ e, (write_console c code text events).1 = Except.error e)
        ↔ (code ≠ c.HERMES_EC_WARNING ∧ code ≠ c.HERMES_EC_INFO))
      ∧ (code ≠ c.HERMES_EC_WARNING ∧ code ≠ c.HERMES_EC_INFO →
          write_console c code text events
            = (Except.error (LogException.UnknownErrorCode code), events))
      ∧ (¬ (code ≠ c.HERMES_EC_WARNING ∧ code ≠ c.HERMES_EC_INFO) →
          (write_console c code text events).1 = Except.ok true))
    ∧ (∀ (this : Loggable) (text : String) (events : List LogEvent),
        this.verbose_output = true → this.file_output_only = false →
        (error c env this text events).result
            = Except.error (LogException.UnknownErrorCode c.HERMES_EC_ERROR)
        ∧ (error c env this text events).events = events
        ∧ (error c env this text events).object = this)
    ∧ (∀ (this : Loggable) (text : String) (events : List LogEvent),
        this.verbose_output = false →
        ((error c env this text events).result = Except.ok ()
          ∧ (error c env this text events).events = events
          ∧ (error c env this text events).object = this)
        ∧ ((warn c env this text events).result = Except.ok ()
          ∧ (warn c env this text events).events = events
          ∧ (warn c env this text events).object = this)
        ∧ ((info c env this text events).result = Except.ok ()
          ∧ (info c env this text events).events = events
          ∧ (info c env this text events).object = this)) := by
  refine ⟨?_, ?_, ?_⟩
  · intro code text events
    obtain ⟨c1, c2, c3⟩ := write_console_cases c code text events
    by_cases h1 : code = c.HERMES_EC_WARNING
    · refine ⟨⟨?_, fun h => absurd h1 h.1⟩, fun h => absurd h1 h.1, fun _ => by rw [c1 h1]⟩
      rintro ⟨e, he⟩
      rw [c1 h1] at he
      cases he
    · by_cases h2 : code = c.HERMES_EC_INFO
      · refine ⟨⟨?_, fun h => absurd h2 h.2⟩, fun h => absurd h2 h.2,
          fun _ => by rw [c2 h1 h2]⟩
        rintro ⟨e, he⟩
        rw [c2 h1 h2] at he
        cases he
      · refine ⟨⟨fun _ => ⟨h1, h2⟩, fun _ => ⟨_, by rw [c3 h1 h2]⟩⟩, fun _ => c3 h1 h2,
          fun h => absurd ⟨h1, h2⟩ h⟩
  · intro this text events hv hf
    have h := hermes_log_message_unknown_code c env this c.HERMES_EC_ERROR text events hw hi hf
    simp only [error, hv, Bool.not_true, Bool.false_eq_true, if_false, h, and_self]
  · intro this text events hv
    simp only [error, warn, info, hv, Bool.not_false, if_true, and_self]

/-- C21 at a concrete input: codes `'E'`, `'W'`, `'I'`, a verbose object as constructed, the
text `boom` and nothing emitted before. -/
theorem write_console_throws_iff_witness :
    (error exampleConstants exampleEnvironment (Loggable.construct true false true) "boom"
        []).result = Except.error (LogException.UnknownErrorCode 'E')
    ∧ (error exampleConstants exampleEnvironment (Loggable.construct true false true) "boom"
        []).events = [] :=
  have h := (write_console_throws_iff exampleConstants exampleEnvironment
    (by decide) (by decide)).2.1 (Loggable.construct true false true) "boom" [] rfl rfl
  ⟨h.1, h.2.1⟩

end Hermes.Mixins
